import Mathlib

/-!
Shallow embedding of the median-reconciliation core of DTLMedian.py
(repository Trainzack/dtldiameter) together with theorems settling the
frozen claims about it.

Conventions of the embedding:
* Python tuples `('gene', 'SPECIES')` become `MapNode = Option String × Option String`;
  the sentinel `(None, None)` is `(none, none)`.
* Python dicts become association lists; `setA` is dict assignment
  (overwrite), `lookupA` is dict lookup, `updateA` is `dict.update`.
* Python floats become `ℚ` (all quantities manipulated by the code are
  ratios of exact integer counts).
* Fallible operations (KeyError, IndexError, ZeroDivisionError, failed
  `assert`) are modelled with `Except String` (or `Option`), with a
  distinct error string per failure kind.
* Unbounded recursion is modelled with an explicit fuel parameter; fuel
  exhaustion is a distinct failure from any Python exception.
* DTLMedian.py mixes snake_case and camelCase names mid-refactor
  (`geneRoot` / `gene_root`, `eventScores` / `event_scores`,
  `calculateScoresForChildren` / `calculate_scores_for_children`,
  `DTLReconGraph` used for `dtl_recon_graph`); the embedding resolves
  each camelCase identifier to the snake_case parameter or sibling
  function of the enclosing definition, which is the only reading under
  which the function body is executable at all.
-/

set_option maxHeartbeats 1000000

deriving instance DecidableEq for Except

/-- Event types of the DTL model: Speciation, Duplication, Transfer, Loss,
Contemporary. -/
inductive EType
| S
| D
| T
| L
| C
deriving DecidableEq, Repr

/-- A mapping node: a pair of an optional gene label and an optional species
label.  `(none, none)` models the Python sentinel `(None, None)`. -/
abbrev MapNode : Type := Option String × Option String

/-- An event node `('event_type', child_mapping_node1, child_mapping_node2)`. -/
structure Event where
  t : EType
  c1 : MapNode
  c2 : MapNode
deriving DecidableEq, Repr

/-- The sentinel mapping node `(None, None)`. -/
def sentinel : MapNode := (none, none)

/-- The Contemporary event node `('C', (None, None), (None, None))`. -/
def cEvent : Event := ⟨EType.C, sentinel, sentinel⟩

/-- A DTL reconciliation graph: a dict from mapping nodes to event lists,
modelled as an association list. -/
abbrev ReconGraph := List (MapNode × List Event)

/-- Dictionary lookup on an association list (the most recent binding, kept
at the front, wins). -/
def lookupA {α β : Type} [DecidableEq α] : List (α × β) → α → Option β
| [], _ => none
| p :: rest, a => if p.1 = a then some p.2 else lookupA rest a

/-- Dictionary assignment `d[a] = b`: overwrite any existing binding. -/
def setA {α β : Type} [DecidableEq α] (l : List (α × β)) (a : α) (b : β) :
    List (α × β) :=
  (a, b) :: l.filter (fun p => ¬ p.1 = a)

/-- Python `d.update(u)`: apply every binding of `u` over `l`. -/
def updateA {α β : Type} [DecidableEq α] (l : List (α × β)) (u : List (α × β)) :
    List (α × β) :=
  u.foldl (fun d p => setA d p.1 p.2) l

/-- The memo dict of `count_mprs`.  The Python code stores mapping-node keys
(2-tuples) and event-node keys (3-tuples) in the one dict `counts`; the two
key spaces are disjoint in Python, so they are modelled as two maps. -/
structure Counts where
  m : List (MapNode × Nat)
  e : List (Event × Nat)
deriving DecidableEq, Repr

/-- Combined walker for `count_mprs` (DTLMedian.py, lines 126-166): the
`Sum.inl` case is the body of `count_mprs` itself (memo hit first, then the
sentinel base case yielding 1 without caching, then the event loop); the
`Sum.inr` case is its loop over event nodes, which stores
`counts[event] = count(child1) * count(child2)` and accumulates their sum.
`none` models recursion-limit exhaustion or a Python KeyError on
`dtl_recon_graph[mapping_node]`.  Fuel is consumed at every recursive step
so the definition is structurally recursive (hence kernel-computable); a
terminating Python run corresponds to every large enough fuel. -/
def count_walk (g : ReconGraph) :
    Nat → Sum MapNode (List Event) → Counts → Option (Nat × Counts)
  | 0, _, _ => none
  | f + 1, Sum.inl n, cnts =>
    (match lookupA cnts.m n with
    | some c => some (c, cnts)
    | none =>
      if n = sentinel then some (1, cnts)
      else
        match lookupA g n with
        | none => none
        | some evs =>
          match count_walk g f (Sum.inr evs) cnts with
          | none => none
          | some (c, k) => some (c, ⟨setA k.m n c, k.e⟩))
  | _ + 1, Sum.inr [], cnts => some (0, cnts)
  | f + 1, Sum.inr (ev :: rest), cnts =>
    (match count_walk g f (Sum.inl ev.c1) cnts with
    | none => none
    | some (a, k1) =>
      match count_walk g f (Sum.inl ev.c2) k1 with
      | none => none
      | some (b, k2) =>
        match count_walk g f (Sum.inr rest) ⟨k2.m, setA k2.e ev (a * b)⟩ with
        | none => none
        | some (c, k4) => some (a * b + c, k4))

/-- Embedding of `count_mprs` (DTLMedian.py, lines 126-166). -/
def count_mprs (fuel : Nat) (g : ReconGraph) (n : MapNode) (cnts : Counts) :
    Option (Nat × Counts) :=
  count_walk g fuel (Sum.inl n) cnts

/-- The event loop inside `count_mprs` (DTLMedian.py, lines 152-161). -/
def count_events (fuel : Nat) (g : ReconGraph) (evs : List Event)
    (cnts : Counts) : Option (Nat × Counts) :=
  count_walk g fuel (Sum.inr evs) cnts

/-- The score dicts hold Python floats; every value the code manipulates is a
ratio of exact integer counts, embedded in `ℚ`. -/
abbrev Scores := List (MapNode × ℚ)

/-- The scored graph: event node to frequency score. -/
abbrev EventScores := List (Event × ℚ)

/-- Python dict read `d[k]`: KeyError when the key is absent. -/
def getE {α β : Type} [DecidableEq α] (d : List (α × β)) (k : α) :
    Except String β :=
  match lookupA d k with
  | none => Except.error "keyerror"
  | some v => Except.pure v

/-- Python `d[k] += v`: KeyError when the key is absent. -/
def addAtE {α : Type} [DecidableEq α] (d : List (α × ℚ)) (k : α) (v : ℚ) :
    Except String (List (α × ℚ)) :=
  match lookupA d k with
  | none => Except.error "keyerror"
  | some old => Except.pure (setA d k (old + v))

/-- The body of the event loop of `calculate_scores_for_children`
(DTLMedian.py, lines 187-195): give the event the score
`multiplier * counts[event]` and add it to both children's scores. -/
def csfc_step (multiplier : ℚ) (cnts : Counts) (acc : EventScores × Scores)
    (ev : Event) : Except String (EventScores × Scores) := do
  let ce ← getE cnts.e ev
  let v : ℚ := multiplier * (ce : ℚ)
  let sg := setA acc.1 ev v
  let sc1 ← addAtE acc.2 ev.c1 v
  let sc2 ← addAtE sc1 ev.c2 v
  Except.pure (sg, sc2)

/-- Embedding of `calculate_scores_for_children` (DTLMedian.py, lines
169-195): read the event list, assert the mapping node's score is nonzero,
form the multiplier `scores[node] / counts[node]`, then give every event the
score `multiplier * counts[event]` and add it to both children's scores. -/
def calculate_scores_for_children (mapping_node : MapNode)
    (dtl_recon_graph : ReconGraph) (scored_graph : EventScores)
    (scores : Scores) (cnts : Counts) : Except String (EventScores × Scores) := do
  let events ← getE dtl_recon_graph mapping_node
  let s ← getE scores mapping_node
  if s = 0 then Except.error "assert-nonzero"
  let cn ← getE cnts.m mapping_node
  if cn = 0 then Except.error "zerodivision"
  let multiplier : ℚ := s / (cn : ℚ)
  events.foldlM (csfc_step multiplier cnts) (scored_graph, scores)

/-- One step of the counting loop of `generate_scores` (DTLMedian.py, lines
96-98): nodes whose gene component is the gene root contribute their MPR
count to the running total. -/
def gs_count_step (fuel : Nat) (dtl_recon_graph : ReconGraph)
    (gene_root : String) (acc : Nat × Counts) (n : MapNode) :
    Except String (Nat × Counts) :=
  if n.1 = some gene_root then
    match count_mprs fuel dtl_recon_graph n acc.2 with
    | none => Except.error "count-failure"
    | some (c, cnts) => Except.pure (acc.1 + c, cnts)
  else Except.pure acc

/-- One step of the cascade loop of `generate_scores` (DTLMedian.py, lines
113-118): seed a gene-root node's score with its count, then distribute to
the children of its events. -/
def gs_cascade_step (dtl_recon_graph : ReconGraph) (gene_root : String)
    (counts : Counts) (acc : EventScores × Scores) (n : MapNode) :
    Except String (EventScores × Scores) := do
  let sc ←
    if n.1 = some gene_root then do
      let c ← getE counts.m n
      Except.pure (setA acc.2 n ((c : ℚ)))
    else Except.pure acc.2
  calculate_scores_for_children n dtl_recon_graph acc.1 sc counts

/-- One step of the final normalization loop of `generate_scores`
(DTLMedian.py, lines 120-121): divide one mapping-node score by the total. -/
def gs_normalize_step (count : Nat) (sc : Scores) (n : MapNode) :
    Except String Scores := do
  if count = 0 then Except.error "zerodivision"
  let v ← getE sc n
  Except.pure (setA sc n (v / (count : ℚ)))

/-- Embedding of `generate_scores` (DTLMedian.py, lines 78-123): count MPRs
below every mapping node whose gene component is the gene root and sum them
into the total; initialize every listed node's score (and the sentinel's) to
0; cascade root-to-leaf, seeding each gene-root node's score with its count
before distributing to children; finally divide every mapping-node score by
the total (those scores are then discarded) and return the event scores,
which the final loop does NOT divide, together with the total. -/
def generate_scores (fuel : Nat) (preorder_mapping_node_list : List MapNode)
    (dtl_recon_graph : ReconGraph) (gene_root : String) :
    Except String (EventScores × Nat) := do
  let countsPair ← preorder_mapping_node_list.foldlM
    (gs_count_step fuel dtl_recon_graph gene_root) (0, (⟨[], []⟩ : Counts))
  let scores0 : Scores :=
    setA (preorder_mapping_node_list.foldl (fun s n => setA s n 0) []) sentinel 0
  let cascade ← preorder_mapping_node_list.foldlM
    (gs_cascade_step dtl_recon_graph gene_root countsPair.2)
    (([], scores0) : EventScores × Scores)
  let _ ← preorder_mapping_node_list.foldlM
    (gs_normalize_step countsPair.1) cascade.2
  Except.pure (cascade.1, countsPair.1)

/-- The key computation of `sorted(key=...)` in `mapping_node_sort`: pair
every mapping node with the sum of its two level-lookup values; `none`
models a KeyError raised by the key lambda. -/
def keyed_nodes (gene_level_lookup species_level_lookup : List (Option String × Nat)) :
    List MapNode → Option (List (MapNode × Nat))
  | [] => some []
  | n :: rest => do
    let a ← lookupA gene_level_lookup n.1
    let b ← lookupA species_level_lookup n.2
    let tail ← keyed_nodes gene_level_lookup species_level_lookup rest
    some ((n, a + b) :: tail)

/-- Embedding of `mapping_node_sort` (DTLMedian.py, lines 41-75): build the
two level-lookup dicts (gene index times the species-node count; species
index), key every mapping node by the sum of its two levels, and sort by
that key.  Python `sorted` is a stable ascending sort by the key, embedded
as a stable insertion sort.  `none` models a KeyError raised by the key
lambda inside `sorted`. -/
def mapping_node_sort (ordered_gene_node_list ordered_species_node_list : List String)
    (mapping_node_list : List MapNode) : Option (List MapNode) := do
  let gene_multiplier := ordered_species_node_list.length
  let gene_level_lookup : List (Option String × Nat) :=
    ordered_gene_node_list.enum.foldl
      (fun d p => setA d (some p.2) (p.1 * gene_multiplier)) []
  let species_level_lookup : List (Option String × Nat) :=
    ordered_species_node_list.enum.foldl (fun d p => setA d (some p.2) p.1) []
  let keyed ← keyed_nodes gene_level_lookup species_level_lookup
    mapping_node_list
  some ((List.insertionSort (fun p q => p.2 ≤ q.2) keyed).map (fun p => p.1))

/-- The `sum_freqs` dict of `compute_median`: mapping node to the pair of its
retained event list and its running frequency-minus-0.5 sum. -/
abbrev SumFreqs := List (MapNode × (List Event × ℚ))

/-- The candidate running total of one event inside `compute_median`
(DTLMedian.py, lines 231-235): for a Loss, the first child's running sum plus
the event's score minus 0.5; otherwise both children's running sums plus the
event's score minus 0.5, with dict reads in Python evaluation order. -/
def cand_total (event_scores : EventScores) (sum_freqs : SumFreqs)
    (ev : Event) : Except String ℚ := do
  if ev.t = EType.L then do
    let a ← getE sum_freqs ev.c1
    let f ← getE event_scores ev
    Except.pure (a.2 + f - 1/2)
  else do
    let a ← getE sum_freqs ev.c1
    let b ← getE sum_freqs ev.c2
    let f ← getE event_scores ev
    Except.pure (a.2 + b.2 + f - 1/2)

/-- The event loop of `compute_median` (DTLMedian.py, lines 230-235):
pair every event of the node with its candidate running total, in order. -/
def cand_pairs (event_scores : EventScores) (sum_freqs : SumFreqs) :
    List Event → Except String (List (Event × ℚ))
  | [] => Except.pure []
  | ev :: rest => do
    let q ← cand_total event_scores sum_freqs ev
    let tail ← cand_pairs event_scores sum_freqs rest
    Except.pure ((ev, q) :: tail)

/-- Python `max(events, key=itemgetter(1))`: the first pair whose second
component is maximal; ValueError on an empty list. -/
def pyMaxSnd : List (Event × ℚ) → Except String (Event × ℚ)
| [] => Except.error "valueerror"
| p :: rest =>
  Except.pure (rest.foldl (fun best q => if q.2 > best.2 then q else best) p)

/-- The body of the mapping-node loop of `compute_median` (DTLMedian.py,
lines 222-252): Contemporary-only nodes get the fixed entry `([C], 0.5)`;
any other node gets all events whose candidate total equals the maximum
candidate total, together with that maximum. -/
def median_entry (dtl_recon_graph : ReconGraph) (event_scores : EventScores)
    (sum_freqs : SumFreqs) (map_node : MapNode) :
    Except String (List Event × ℚ) := do
  let evs ← getE dtl_recon_graph map_node
  if evs = [cEvent] then Except.pure ([cEvent], 1/2)
  else do
    let pairs ← cand_pairs event_scores sum_freqs evs
    let mx ← pyMaxSnd pairs
    let best_events := (pairs.filter (fun p => p.2 = mx.2)).map (fun p => p.1)
    Except.pure (best_events, mx.2)

/-- One step of the mapping-node loop of `compute_median`: compute the
node's entry and store it in `sum_freqs`. -/
def median_step (dtl_recon_graph : ReconGraph) (event_scores : EventScores)
    (sf : SumFreqs) (n : MapNode) : Except String SumFreqs := do
  let e ← median_entry dtl_recon_graph event_scores sf n
  Except.pure (setA sf n e)

/-- The full mapping-node loop of `compute_median`: fold `median_step` over
the postorder mapping-node list, building `sum_freqs`. -/
def median_sum_freqs (dtl_recon_graph : ReconGraph)
    (event_scores : EventScores) (postorder_mapping_nodes : List MapNode) :
    Except String SumFreqs :=
  postorder_mapping_nodes.foldlM (median_step dtl_recon_graph event_scores) []

/-- One step of the root-selection loop of `compute_median` (DTLMedian.py,
lines 260-277): initialize on the first root, append a root tying the best
sum, reset on a root beating it, ignore a root below it. -/
def brf_step (acc : Option ℚ × List MapNode) (rc : MapNode × ℚ) :
    Option ℚ × List MapNode :=
  match acc.1 with
  | none => (some rc.2, [rc.1])
  | some b =>
    if rc.2 = b then (some b, acc.2 ++ [rc.1])
    else if rc.2 > b then (some rc.2, [rc.1])
    else (some b, acc.2)

/-- The root-selection loop of `compute_median` (DTLMedian.py, lines
254-277): scan the root/sum pairs keeping the best sum seen and the list of
roots achieving it. -/
def best_root_fold (possible_root_combos : List (MapNode × ℚ)) :
    Option ℚ × List MapNode :=
  possible_root_combos.foldl brf_step (none, [])

/-- Embedding of `check_subgraph` (DTLMedian.py, lines 297-317): every
mapping node of `subrecon` must be a key of `recon_graph` and every event
under it must be listed under the same key in `recon_graph`. -/
def check_subgraph (recon_graph : ReconGraph) (subrecon : ReconGraph) : Bool :=
  subrecon.all (fun p =>
    match lookupA recon_graph p.1 with
    | none => false
    | some revs => p.2.all (fun ev => decide (ev ∈ revs)))

/-- Modelled from the spec: `DTLReconGraph.build_dtl_recon_graph` is imported
from DTLReconGraph.py, which is not under src/.  Per spec section 6 it is "a
function that, given a set of roots and a mapping from mapping node to its
selected event list, reconstructs a reconciliation-graph-shaped dictionary":
the dictionary binds every mapping node reachable from the roots through the
selected events to its selected event list.  The `Sum.inl` case visits one
mapping node (skipping nodes already in the accumulator); the `Sum.inr`
case visits the non-sentinel children of every selected event. -/
def bdrg_go (event_dict : List (MapNode × List Event)) :
    Nat → Sum MapNode (List Event) → ReconGraph → Except String ReconGraph
  | 0, _, _ => Except.error "recursion-limit"
  | f + 1, Sum.inl n, acc =>
    (match lookupA acc n with
    | some _ => Except.pure acc
    | none =>
      match lookupA event_dict n with
      | none => Except.error "keyerror"
      | some evs => bdrg_go event_dict f (Sum.inr evs) (setA acc n evs))
  | _ + 1, Sum.inr [], acc => Except.pure acc
  | f + 1, Sum.inr (ev :: rest), acc =>
    (match (if ev.c1 = sentinel then Except.pure acc
            else bdrg_go event_dict f (Sum.inl ev.c1) acc : Except String ReconGraph) with
    | Except.error e => Except.error e
    | Except.ok a1 =>
      match (if ev.c2 = sentinel then Except.pure a1
             else bdrg_go event_dict f (Sum.inl ev.c2) a1 : Except String ReconGraph) with
      | Except.error e => Except.error e
      | Except.ok a2 => bdrg_go event_dict f (Sum.inr rest) a2)

/-- Modelled from the spec: the root loop of `DTLReconGraph.build_dtl_recon_graph`
(not under src/) walks every given root over the shared dictionary. -/
def build_dtl_recon_graph (fuel : Nat) (roots : List MapNode)
    (event_dict : List (MapNode × List Event)) : Except String ReconGraph :=
  roots.foldlM (fun acc r => bdrg_go event_dict fuel (Sum.inl r) acc) []

/-- Modelled from the spec: `DTLReconGraph.count_mprs_wrapper` is imported
from DTLReconGraph.py, which is not under src/.  Per spec sections 4.4 and 6
it re-runs the section 4.2 counting algorithm restricted to the given graph
and roots: the sum over the roots of their MPR counts, one shared memo. -/
def count_mprs_wrapper (fuel : Nat) (roots : List MapNode) (g : ReconGraph) :
    Option Nat :=
  (roots.foldlM (fun (acc : Nat × Counts) r =>
    (count_mprs fuel g r acc.2).map (fun p => (acc.1 + p.1, p.2)))
    (0, (⟨[], []⟩ : Counts))).map (fun p => p.1)

/-- Embedding of `compute_median` (DTLMedian.py, lines 198-294): build
`sum_freqs` leaf-to-root, pick the best roots, strip the running sums, build
the median graph from the best roots, assert it is a subgraph of the input
graph, and count its reconciliations. -/
def compute_median (fuel : Nat) (dtl_recon_graph : ReconGraph)
    (event_scores : EventScores) (postorder_mapping_nodes : List MapNode)
    (mpr_roots : List MapNode) :
    Except String (ReconGraph × Nat × List MapNode) := do
  let sum_freqs ← median_sum_freqs dtl_recon_graph event_scores
    postorder_mapping_nodes
  let possible_root_combos ← mpr_roots.mapM (fun r => do
    let e ← getE sum_freqs r
    Except.pure (r, e.2))
  let best_roots := (best_root_fold possible_root_combos).2
  let event_dict := sum_freqs.map (fun p => (p.1, p.2.1))
  let med_recon_graph ← build_dtl_recon_graph fuel best_roots event_dict
  if check_subgraph dtl_recon_graph med_recon_graph then
    match count_mprs_wrapper fuel best_roots med_recon_graph with
    | none => Except.error "count-failure"
    | some n_med_recons =>
      Except.pure (med_recon_graph, n_med_recons, best_roots)
  else Except.error "assert-subgraph"

/-- Embedding of `build_median_recon_graph` (DTLMedian.py, lines 320-348):
bind the root to its whole event list from `event_dict`, then recurse into
the children of the FIRST event of that list (one child for L, two for
T/S/D, none otherwise), merging the recursive dicts with `dict.update`. -/
def build_median_recon_graph (fuel : Nat)
    (event_dict : List (MapNode × List Event)) (root : MapNode) :
    Except String ReconGraph :=
  match fuel with
  | 0 => Except.error "recursion-limit"
  | f + 1 => do
    let evs ← getE event_dict root
    let e0 ← match evs with
      | [] => Except.error "indexerror"
      | e :: _ => Except.pure e
    let base : ReconGraph := [(root, evs)]
    if e0.t = EType.L then do
      let sub ← build_median_recon_graph f event_dict e0.c1
      Except.pure (updateA base sub)
    else if e0.t = EType.T ∨ e0.t = EType.S ∨ e0.t = EType.D then do
      let sub1 ← build_median_recon_graph f event_dict e0.c1
      let sub2 ← build_median_recon_graph f event_dict e0.c2
      Except.pure (updateA (updateA base sub1) sub2)
    else Except.pure base

/-- Python `random.choice(l)` driven by one oracle draw `i`: the element at
index `i` modulo the length (the default is never used on nonempty lists). -/
def pyChoice (i : Nat) (l : List Event) (d : Event) : Event :=
  l.getD (i % l.length) d

/-- Embedding of `choose_random_median` (DTLMedian.py, lines 351-379): pick
one event of the node's list with `random.choice` (modelled by the oracle
`rng` read at the running draw index `step`), bind the node to that single
event, recurse into the chosen event's children, and assert the result is a
subgraph of the median. -/
def choose_random_median (fuel : Nat) (rng : Nat → Nat) (step : Nat)
    (median_recon : ReconGraph) (map_node : MapNode) :
    Except String (ReconGraph × Nat) :=
  match fuel with
  | 0 => Except.error "recursion-limit"
  | f + 1 =>
    match lookupA median_recon map_node with
    | none => Except.error "keyerror"
    | some [] => Except.error "indexerror"
    | some (e :: rest) =>
      let next_event := pyChoice (rng step) (e :: rest) e
      let base : ReconGraph := [(map_node, [next_event])]
      match (if next_event.t = EType.L then
          (match choose_random_median f rng (step + 1) median_recon
              next_event.c1 with
           | Except.error er => Except.error er
           | Except.ok sub => Except.ok (updateA base sub.1, sub.2))
        else if next_event.t = EType.T ∨ next_event.t = EType.S ∨
            next_event.t = EType.D then
          (match choose_random_median f rng (step + 1) median_recon
              next_event.c1 with
           | Except.error er => Except.error er
           | Except.ok sub1 =>
             match choose_random_median f rng sub1.2 median_recon
                 next_event.c2 with
             | Except.error er => Except.error er
             | Except.ok sub2 =>
               Except.ok (updateA (updateA base sub1.1) sub2.1, sub2.2))
        else Except.ok (base, step + 1) : Except String (ReconGraph × Nat)) with
      | Except.error er => Except.error er
      | Except.ok accPair =>
        if check_subgraph median_recon accPair.1 then Except.ok accPair
        else Except.error "assert-subgraph"

theorem mem_setA {α β : Type} [DecidableEq α] {l : List (α × β)} {a : α}
    {b : β} {p : α × β} (hp : p ∈ setA l a b) : p = (a, b) ∨ p ∈ l := by
  rcases List.mem_cons.mp hp with h | h
  · exact Or.inl h
  · exact Or.inr (List.mem_of_mem_filter h)

theorem lookupA_mem {α β : Type} [DecidableEq α] :
    ∀ {l : List (α × β)} {a : α} {b : β}, lookupA l a = some b → (a, b) ∈ l := by
  intro l
  induction l with
  | nil => intro a b h; simp [lookupA] at h
  | cons p rest ih =>
    intro a b h
    obtain ⟨x, y⟩ := p
    rw [lookupA] at h
    by_cases hpa : x = a
    · simp [hpa] at h
      subst hpa
      subst h
      exact List.mem_cons_self _ _
    · simp [hpa] at h
      exact List.mem_cons_of_mem _ (ih h)

theorem lookupA_filter_ne {α β : Type} [DecidableEq α] {a c : α}
    (h : ¬ a = c) :
    ∀ l : List (α × β),
      lookupA (l.filter (fun p => ¬ p.1 = a)) c = lookupA l c := by
  intro l
  induction l with
  | nil => rfl
  | cons p rest ih =>
    obtain ⟨x, y⟩ := p
    simp only [decide_not] at ih
    by_cases hpa : x = a
    · have hpc : ¬ x = c := by rw [hpa]; exact h
      simp [List.filter_cons, hpa, lookupA, hpc, ih, h]
    · by_cases hpc : x = c
      · have hca : ¬ c = a := fun hh => h hh.symm
        simp [List.filter_cons, hpa, lookupA, hpc, hca]
      · simp [List.filter_cons, hpa, lookupA, hpc, ih]

theorem lookupA_setA_self {α β : Type} [DecidableEq α] (l : List (α × β))
    (a : α) (b : β) : lookupA (setA l a b) a = some b := by
  simp [setA, lookupA]

theorem lookupA_setA_ne {α β : Type} [DecidableEq α] (l : List (α × β))
    {a c : α} (b : β) (h : ¬ a = c) :
    lookupA (setA l a b) c = lookupA l c := by
  rw [setA, lookupA]
  simp only [h, if_false]
  exact lookupA_filter_ne h l

mutual

/-- MPR-count specification relation for mapping nodes (spec section 4.2):
the sentinel counts 1; any other node counts the total of its event list in
the graph. -/
inductive NodeCount : ReconGraph → MapNode → Nat → Prop
| base (g : ReconGraph) : NodeCount g sentinel 1
| node (g : ReconGraph) (n : MapNode) (evs : List Event) (c : Nat) :
    n ≠ sentinel → lookupA g n = some evs → EventsCount g evs c →
    NodeCount g n c

/-- MPR-count specification relation for event lists: each event contributes
the product of its two children's counts, and the list counts the sum. -/
inductive EventsCount : ReconGraph → List Event → Nat → Prop
| nil (g : ReconGraph) : EventsCount g [] 0
| cons (g : ReconGraph) (ev : Event) (rest : List Event) (a b c : Nat) :
    NodeCount g ev.c1 a → NodeCount g ev.c2 b → EventsCount g rest c →
    EventsCount g (ev :: rest) (a * b + c)

end

/-- MPR-count specification for a single event: the product of the counts of
its two children. -/
def EventCount (g : ReconGraph) (ev : Event) (c : Nat) : Prop :=
  ∃ a b, NodeCount g ev.c1 a ∧ NodeCount g ev.c2 b ∧ c = a * b

/-- Consistency of the memo dict: every cached mapping-node and event-node
count agrees with the specification relation. -/
def CountsOK (g : ReconGraph) (cnts : Counts) : Prop :=
  (∀ p ∈ cnts.m, NodeCount g p.1 p.2) ∧ (∀ p ∈ cnts.e, EventCount g p.1 p.2)

theorem CountsOK_empty (g : ReconGraph) : CountsOK g ⟨[], []⟩ := by
  constructor <;> intro p hp <;> simp at hp

theorem CountsOK_setM {g : ReconGraph} {cnts : Counts} {n : MapNode} {c : Nat}
    (h : CountsOK g cnts) (hn : NodeCount g n c) :
    CountsOK g ⟨setA cnts.m n c, cnts.e⟩ := by
  refine ⟨?_, h.2⟩
  intro p hp
  rcases mem_setA hp with hp | hp
  · subst hp; exact hn
  · exact h.1 p hp

theorem CountsOK_setE {g : ReconGraph} {cnts : Counts} {ev : Event} {c : Nat}
    (h : CountsOK g cnts) (he : EventCount g ev c) :
    CountsOK g ⟨cnts.m, setA cnts.e ev c⟩ := by
  refine ⟨h.1, ?_⟩
  intro p hp
  rcases mem_setA hp with hp | hp
  · subst hp; exact he
  · exact h.2 p hp

/-- The specification relation matching each walker argument. -/
def CountSpec (g : ReconGraph) : Sum MapNode (List Event) → Nat → Prop
  | Sum.inl n => NodeCount g n
  | Sum.inr evs => EventsCount g evs

theorem count_walk_sound :
    ∀ (f : Nat) (g : ReconGraph) (t : Sum MapNode (List Event))
      (cnts : Counts) (c : Nat) (k : Counts),
      CountsOK g cnts → count_walk g f t cnts = some (c, k) →
      CountSpec g t c ∧ CountsOK g k := by
  intro f
  induction f with
  | zero =>
    intro g t cnts c k hok h
    rw [count_walk] at h
    simp at h
  | succ f ih =>
    intro g t cnts c k hok h
    cases t with
    | inl n =>
      rw [count_walk] at h
      cases hm : lookupA cnts.m n with
      | some c0 =>
        simp only [hm] at h
        simp at h
        rcases h with ⟨h1, h2⟩
        subst h1; subst h2
        exact ⟨hok.1 (n, c0) (lookupA_mem hm), hok⟩
      | none =>
        simp only [hm] at h
        by_cases hs : n = sentinel
        · simp only [hs, if_true] at h
          simp at h
          rcases h with ⟨h1, h2⟩
          subst h1; subst h2
          rw [CountSpec, hs]
          exact ⟨NodeCount.base g, hok⟩
        · simp only [hs, if_false] at h
          cases hg : lookupA g n with
          | none => simp [hg] at h
          | some evs =>
            simp only [hg] at h
            cases he : count_walk g f (Sum.inr evs) cnts with
            | none => simp [he] at h
            | some p =>
              obtain ⟨c1, k1⟩ := p
              simp only [he] at h
              simp at h
              rcases h with ⟨h1, h2⟩
              obtain ⟨hec, hok2⟩ := ih g (Sum.inr evs) cnts c1 k1 hok he
              have hn : NodeCount g n c1 := NodeCount.node g n evs c1 hs hg hec
              subst h1
              rw [← h2]
              exact ⟨hn, CountsOK_setM hok2 hn⟩
    | inr evs =>
      cases evs with
      | nil =>
        rw [count_walk] at h
        simp at h
        rcases h with ⟨h1, h2⟩
        subst h1; subst h2
        exact ⟨EventsCount.nil g, hok⟩
      | cons ev rest =>
        rw [count_walk] at h
        cases h1 : count_walk g f (Sum.inl ev.c1) cnts with
        | none => simp [h1] at h
        | some p1 =>
          obtain ⟨a, k1⟩ := p1
          simp only [h1] at h
          cases h2 : count_walk g f (Sum.inl ev.c2) k1 with
          | none => simp [h2] at h
          | some p2 =>
            obtain ⟨b, k2⟩ := p2
            simp only [h2] at h
            obtain ⟨hn1, hok1⟩ := ih g (Sum.inl ev.c1) cnts a k1 hok h1
            obtain ⟨hn2, hok2⟩ := ih g (Sum.inl ev.c2) k1 b k2 hok1 h2
            have hok3 : CountsOK g ⟨k2.m, setA k2.e ev (a * b)⟩ :=
              CountsOK_setE hok2 ⟨a, b, hn1, hn2, rfl⟩
            cases h3 : count_walk g f (Sum.inr rest)
                ⟨k2.m, setA k2.e ev (a * b)⟩ with
            | none => simp [h3] at h
            | some p3 =>
              obtain ⟨cr, k4⟩ := p3
              simp only [h3] at h
              simp at h
              rcases h with ⟨hc, hcnt⟩
              obtain ⟨hec, hok4⟩ :=
                ih g (Sum.inr rest) ⟨k2.m, setA k2.e ev (a * b)⟩ cr k4 hok3 h3
              subst hc
              rw [← hcnt]
              exact ⟨EventsCount.cons g ev rest a b cr hn1 hn2 hec, hok4⟩

theorem count_mprs_sound (f : Nat) (g : ReconGraph) (n : MapNode)
    (cnts : Counts) (c : Nat) (k : Counts) (hok : CountsOK g cnts)
    (h : count_mprs f g n cnts = some (c, k)) :
    NodeCount g n c ∧ CountsOK g k :=
  count_walk_sound f g (Sum.inl n) cnts c k hok h

theorem except_bind_ok {α β : Type} {x : Except String α}
    {f : α → Except String β} {b : β} (h : (x >>= f) = Except.ok b) :
    ∃ a, x = Except.ok a ∧ f a = Except.ok b := by
  cases x with
  | error e => simp [Bind.bind, Except.bind] at h
  | ok a => exact ⟨a, rfl, by simpa [Bind.bind, Except.bind] using h⟩

theorem NodeCount_sentinel {g : ReconGraph} {c : Nat}
    (h : NodeCount g sentinel c) : c = 1 := by
  cases h with
  | base => rfl
  | node _ _ _ hne _ _ => exact absurd rfl hne

theorem gs_count_phase_sound (fuel : Nat) (g : ReconGraph) (root : String) :
    ∀ (l : List MapNode) (acc res : Nat × Counts),
      CountsOK g acc.2 →
      List.foldlM (gs_count_step fuel g root) acc l = Except.ok res →
      CountsOK g res.2 ∧
      ∃ cs : List Nat,
        List.Forall₂ (fun n c => NodeCount g n c)
          (l.filter (fun n => n.1 = some root)) cs ∧
        res.1 = acc.1 + cs.sum := by
  intro l
  induction l with
  | nil =>
    intro acc res hok h
    rw [List.foldlM_nil] at h
    have hacc : acc = res := by simpa [pure, Except.pure] using h
    subst hacc
    exact ⟨hok, [], List.Forall₂.nil, by simp⟩
  | cons n rest ihl =>
    intro acc res hok h
    rw [List.foldlM_cons] at h
    obtain ⟨acc1, hstep, hrest⟩ := except_bind_ok h
    by_cases hr : n.1 = some root
    · rw [gs_count_step, if_pos hr] at hstep
      cases hcm : count_mprs fuel g n acc.2 with
      | none => simp [hcm] at hstep
      | some p =>
        obtain ⟨c, k⟩ := p
        simp only [hcm] at hstep
        have hacc1 : acc1 = (acc.1 + c, k) := (Except.ok.inj hstep).symm
        subst hacc1
        obtain ⟨hn, hok1⟩ := count_mprs_sound fuel g n acc.2 c k hok hcm
        obtain ⟨hok2, cs, hf, hsum⟩ := ihl (acc.1 + c, k) res hok1 hrest
        refine ⟨hok2, c :: cs, ?_, ?_⟩
        · simp only [List.filter_cons, hr, decide_True, if_true]
          exact List.Forall₂.cons hn hf
        · simp only [List.sum_cons]
          omega
    · rw [gs_count_step, if_neg hr] at hstep
      have hacc1 : acc1 = acc := (Except.ok.inj hstep).symm
      rw [hacc1] at hrest
      obtain ⟨hok2, cs, hf, hsum⟩ := ihl acc res hok hrest
      refine ⟨hok2, cs, ?_, hsum⟩
      simp only [List.filter_cons, hr, decide_False, if_false]
      exact hf

theorem generate_scores_ok_parts {fuel : Nat} {pre : List MapNode}
    {g : ReconGraph} {root : String} {es : EventScores} {total : Nat}
    (h : generate_scores fuel pre g root = Except.ok (es, total)) :
    ∃ cp : Nat × Counts,
      List.foldlM (gs_count_step fuel g root) (0, (⟨[], []⟩ : Counts)) pre =
        Except.ok cp ∧ total = cp.1 := by
  unfold generate_scores at h
  obtain ⟨cp, h1, h2⟩ := except_bind_ok h
  refine ⟨cp, h1, ?_⟩
  obtain ⟨casc, h3, h4⟩ := except_bind_ok h2
  obtain ⟨nrm, h5, h6⟩ := except_bind_ok h4
  have h7 : (casc.1, cp.1) = (es, total) := by
    simpa [Except.pure] using h6
  exact ((Prod.ext_iff.mp h7).2).symm

/-- Example mapping nodes and events: a mapping node `wN` with two Loss
events to leaf nodes `wA` and `wB`, each Contemporary. -/
def wA : MapNode := (some "g1", some "sa")

def wB : MapNode := (some "g1", some "sb")

def wN : MapNode := (some "g1", some "sn")

def wL1 : Event := ⟨EType.L, wA, sentinel⟩

def wL2 : Event := ⟨EType.L, wB, sentinel⟩

def wGraph : ReconGraph := [(wN, [wL1, wL2]), (wA, [cEvent]), (wB, [cEvent])]

/-- The memo produced by running `count_mprs` on `wGraph` from `wN`. -/
def wMemo : Counts :=
  ⟨[(wN, 2), (wB, 1), (wA, 1)], [(wL2, 1), (cEvent, 1), (wL1, 1)]⟩

/-- C2: `count_mprs` returns 1 for the sentinel mapping node `(None, None)`,
and otherwise the sum, over the event nodes listed under the mapping node in
the reconciliation graph, of the products of the counts of the event's two
children, keeping both the event-level and the mapping-level caches
consistent with that specification; and the total MPR count computed in
`generate_scores` equals the sum of `count_mprs` over the listed mapping
nodes whose gene component is the gene-tree root. -/
theorem c2_count_mprs_sum_of_products :
    (∀ (fuel : Nat) (g : ReconGraph) (n : MapNode) (cnts : Counts) (c : Nat)
        (cnts2 : Counts), CountsOK g cnts →
        count_mprs fuel g n cnts = some (c, cnts2) →
        NodeCount g n c ∧ (n = sentinel → c = 1) ∧ CountsOK g cnts2) ∧
    (∀ (fuel : Nat) (pre : List MapNode) (g : ReconGraph) (root : String)
        (es : EventScores) (total : Nat),
        generate_scores fuel pre g root = Except.ok (es, total) →
        ∃ cs : List Nat,
          List.Forall₂ (fun n c => NodeCount g n c)
            (pre.filter (fun n => n.1 = some root)) cs ∧
          total = cs.sum) := by
  constructor
  · intro fuel g n cnts c cnts2 hok h
    obtain ⟨hn, hok2⟩ := count_mprs_sound fuel g n cnts c cnts2 hok h
    refine ⟨hn, ?_, hok2⟩
    intro hs
    subst hs
    exact NodeCount_sentinel hn
  · intro fuel pre g root es total h
    obtain ⟨cp, hfold, htot⟩ := generate_scores_ok_parts h
    obtain ⟨hok2, cs, hf, hsum⟩ :=
      gs_count_phase_sound fuel g root pre (0, ⟨[], []⟩) cp (CountsOK_empty g)
        hfold
    exact ⟨cs, hf, by omega⟩

/-- Witness for C2: on the concrete graph `wGraph`, `count_mprs` from `wN`
returns 2 and the theorem yields the specification facts at that input. -/
theorem c2_count_mprs_sum_of_products_witness :
    NodeCount wGraph wN 2 ∧ (wN = sentinel → 2 = 1) ∧ CountsOK wGraph wMemo := by
  have h : count_mprs 6 wGraph wN ⟨[], []⟩ = some (2, wMemo) := by decide
  exact c2_count_mprs_sum_of_products.1 6 wGraph wN ⟨[], []⟩ 2 wMemo
    (CountsOK_empty wGraph) h

/-- C1 counterexample input: a root whose single speciation event is used by
both of the graph's two MPRs (the left child offers two alternative losses). -/
def c1R : MapNode := (some "g0", some "s0")

def c1X : MapNode := (some "g1", some "s1")

def c1Y : MapNode := (some "g2", some "s2")

def c1XA : MapNode := (some "g1", some "s3")

def c1XB : MapNode := (some "g1", some "s4")

def c1Sp : Event := ⟨EType.S, c1X, c1Y⟩

def c1L1 : Event := ⟨EType.L, c1XA, sentinel⟩

def c1L2 : Event := ⟨EType.L, c1XB, sentinel⟩

def c1Graph : ReconGraph :=
  [(c1R, [c1Sp]), (c1X, [c1L1, c1L2]), (c1Y, [cEvent]),
   (c1XA, [cEvent]), (c1XB, [cEvent])]

def c1Pre : List MapNode := [c1R, c1X, c1Y, c1XA, c1XB]

/-- The event-score dict `generate_scores` returns on `c1Graph`. -/
def c1Es : EventScores :=
  [(cEvent, 1), (c1L2, 1), (c1L1, 1), (c1Sp, 2)]

unseal Rat.add Rat.mul Rat.sub Rat.inv in
/-- C1 is false of the code: on `c1Graph` (total MPR count 2, speciation
event used by both MPRs, so its probability is 1) `generate_scores` returns
event score 2 for the speciation event — the raw number of MPRs using the
event.  The final loop of `generate_scores` divides only the mapping-node
scores by the total, never the returned event scores, so the returned value
lies outside [0, 1]. -/
theorem c1_event_scores_not_divided :
    generate_scores 20 c1Pre c1Graph "g0" = Except.ok (c1Es, 2) ∧
    lookupA c1Es c1Sp = some 2 ∧ ¬ ((2 : ℚ) ≤ 1) := by
  refine ⟨by decide, by decide, by norm_num⟩

unseal Rat.add Rat.mul Rat.sub Rat.inv in
/-- C7 is false of the code: no zero-total rejection exists.  The empty
reconciliation graph (total MPR count 0) is accepted by `generate_scores`,
which returns normally; and on a nonempty graph whose root has no events
(total 0) the counter is entered and the failure that eventually occurs is
the score assertion deep inside the scoring cascade, not an input
rejection before the counter. -/
theorem c7_zero_total_not_rejected :
    generate_scores 5 [] [] "g0" = Except.ok ([], 0) ∧
    generate_scores 5 [(some "g0", some "s0")]
      [((some "g0", some "s0"), [])] "g0" = Except.error "assert-nonzero" := by
  refine ⟨by decide, by decide⟩

theorem median_entry_contemporary {g : ReconGraph} {es : EventScores}
    {sf : SumFreqs} {n : MapNode} (h : lookupA g n = some [cEvent]) :
    median_entry g es sf n = Except.ok ([cEvent], 1/2) := by
  unfold median_entry
  simp [getE, h, Bind.bind, Except.bind, Except.pure]

theorem median_fold_c_node {g : ReconGraph} {n : MapNode}
    (hc : lookupA g n = some [cEvent]) (es1 es2 : EventScores) :
    ∀ (post : List MapNode) (sf1 sf2 r1 r2 : SumFreqs),
      lookupA sf1 n = lookupA sf2 n →
      List.foldlM (median_step g es1) sf1 post = Except.ok r1 →
      List.foldlM (median_step g es2) sf2 post = Except.ok r2 →
      lookupA r1 n = lookupA r2 n ∧
      ((lookupA sf1 n = some ([cEvent], 1/2) ∨ n ∈ post) →
        lookupA r1 n = some ([cEvent], 1/2)) := by
  intro post
  induction post with
  | nil =>
    intro sf1 sf2 r1 r2 heq h1 h2
    rw [List.foldlM_nil] at h1 h2
    obtain rfl : sf1 = r1 := Except.ok.inj h1
    obtain rfl : sf2 = r2 := Except.ok.inj h2
    refine ⟨heq, ?_⟩
    rintro (hl | hmem)
    · exact hl
    · simp at hmem
  | cons m rest ih =>
    intro sf1 sf2 r1 r2 heq h1 h2
    rw [List.foldlM_cons] at h1 h2
    obtain ⟨a1, hs1, hr1⟩ := except_bind_ok h1
    obtain ⟨a2, hs2, hr2⟩ := except_bind_ok h2
    by_cases hmn : m = n
    · subst hmn
      rw [median_step] at hs1 hs2
      rw [median_entry_contemporary hc] at hs1 hs2
      have ha1 : a1 = setA sf1 m ([cEvent], 1/2) := (Except.ok.inj hs1).symm
      have ha2 : a2 = setA sf2 m ([cEvent], 1/2) := (Except.ok.inj hs2).symm
      subst ha1; subst ha2
      have heq2 : lookupA (setA sf1 m ([cEvent], 1/2)) m =
          lookupA (setA sf2 m ([cEvent], 1/2)) m := by
        rw [lookupA_setA_self, lookupA_setA_self]
      obtain ⟨hl, himp⟩ := ih _ _ _ _ heq2 hr1 hr2
      exact ⟨hl, fun _ => himp (Or.inl (lookupA_setA_self _ _ _))⟩
    · rw [median_step] at hs1 hs2
      obtain ⟨e1, he1, hp1⟩ := except_bind_ok hs1
      obtain ⟨e2, he2, hp2⟩ := except_bind_ok hs2
      have ha1 : a1 = setA sf1 m e1 := (Except.ok.inj hp1).symm
      have ha2 : a2 = setA sf2 m e2 := (Except.ok.inj hp2).symm
      subst ha1; subst ha2
      have heq2 : lookupA (setA sf1 m e1) n = lookupA (setA sf2 m e2) n := by
        rw [lookupA_setA_ne _ _ hmn, lookupA_setA_ne _ _ hmn]
        exact heq
      obtain ⟨hl, himp⟩ := ih _ _ _ _ heq2 hr1 hr2
      refine ⟨hl, ?_⟩
      rintro (hx | hmem)
      · refine himp (Or.inl ?_)
        rw [lookupA_setA_ne _ _ hmn]
        exact hx
      · rcases List.mem_cons.mp hmem with h | h
        · exact absurd h.symm hmn
        · exact himp (Or.inr h)

/-- C10: for every mapping node whose event list in the reconciliation graph
is exactly the single Contemporary event, the `sum_freqs` pass of
`compute_median` stores the fixed entry `([C], 0.5)` without consulting the
event-score argument: two completed runs with ANY two score maps (hence in
particular two maps differing only in the frequencies of Contemporary
events) produce identical entries for such nodes. -/
theorem c10_contemporary_entry_ignores_scores :
    ∀ (g : ReconGraph) (es1 es2 : EventScores) (post : List MapNode)
      (n : MapNode) (r1 r2 : SumFreqs),
      lookupA g n = some [cEvent] →
      median_sum_freqs g es1 post = Except.ok r1 →
      median_sum_freqs g es2 post = Except.ok r2 →
      lookupA r1 n = lookupA r2 n ∧
      (n ∈ post → lookupA r1 n = some ([cEvent], 1/2)) := by
  intro g es1 es2 post n r1 r2 hc h1 h2
  unfold median_sum_freqs at h1 h2
  obtain ⟨hl, himp⟩ := median_fold_c_node hc es1 es2 post [] [] r1 r2 rfl h1 h2
  exact ⟨hl, fun hm => himp (Or.inr hm)⟩

/-- The event-score maps and postorder list of the concrete median-pass
witnesses; `wEs2` differs from `wEs` only at the Contemporary event. -/
def wEs : EventScores := [(wL1, 1/2), (wL2, 1/2), (cEvent, 1)]

def wEs2 : EventScores := [(wL1, 1/2), (wL2, 1/2), (cEvent, 7)]

def wPost : List MapNode := [wA, wB, wN]

/-- The `sum_freqs` dict built on `wGraph` (same for `wEs` and `wEs2`). -/
def wSf : SumFreqs :=
  [(wN, ([wL1, wL2], 1/2)), (wB, ([cEvent], 1/2)), (wA, ([cEvent], 1/2))]

unseal Rat.add Rat.mul Rat.sub Rat.inv in
/-- Witness for C10: on `wGraph` with the two score maps differing only at
the Contemporary event, the entries for the Contemporary-only node `wA`
coincide and equal `([C], 0.5)`. -/
theorem c10_contemporary_entry_ignores_scores_witness :
    lookupA wSf wA = lookupA wSf wA ∧
    (wA ∈ wPost → lookupA wSf wA = some ([cEvent], 1/2)) := by
  exact c10_contemporary_entry_ignores_scores wGraph wEs wEs2 wPost wA wSf wSf
    (by decide) (by decide) (by decide)

theorem cand_pairs_sound {es : EventScores} {sf : SumFreqs} :
    ∀ {evs : List Event} {pairs : List (Event × ℚ)},
      cand_pairs es sf evs = Except.ok pairs →
      pairs.map (fun p => p.1) = evs ∧
      ∀ p ∈ pairs, cand_total es sf p.1 = Except.ok p.2 := by
  intro evs
  induction evs with
  | nil =>
    intro pairs h
    rw [cand_pairs] at h
    obtain rfl := Except.ok.inj h
    exact ⟨rfl, by intro p hp; simp at hp⟩
  | cons ev rest ih =>
    intro pairs h
    rw [cand_pairs] at h
    obtain ⟨q, hq, h2⟩ := except_bind_ok h
    obtain ⟨tail, htail, h3⟩ := except_bind_ok h2
    obtain rfl := Except.ok.inj h3
    obtain ⟨hmap, hall⟩ := ih htail
    refine ⟨by simp [hmap], ?_⟩
    intro p hp
    rcases List.mem_cons.mp hp with rfl | hp
    · exact hq
    · exact hall p hp

theorem pyfold_max : ∀ (l : List (Event × ℚ)) (p0 : Event × ℚ),
    (List.foldl (fun best q => if q.2 > best.2 then q else best) p0 l) ∈
      p0 :: l ∧
    ∀ q ∈ p0 :: l,
      q.2 ≤ (List.foldl (fun best q => if q.2 > best.2 then q else best) p0 l).2 := by
  intro l
  induction l with
  | nil =>
    intro p0
    refine ⟨List.mem_cons_self _ _, ?_⟩
    intro q hq
    rcases List.mem_cons.mp hq with rfl | hq
    · exact le_refl _
    · simp at hq
  | cons q2 l ih =>
    intro p0
    rw [List.foldl_cons]
    obtain ⟨hmem, hmax⟩ := ih (if q2.2 > p0.2 then q2 else p0)
    have hp0le : p0.2 ≤ (if q2.2 > p0.2 then q2 else p0).2 := by
      by_cases hgt : q2.2 > p0.2
      · simp [hgt]; exact le_of_lt hgt
      · simp [hgt]
    have hq2le : q2.2 ≤ (if q2.2 > p0.2 then q2 else p0).2 := by
      by_cases hgt : q2.2 > p0.2
      · simp [hgt]
      · simp [hgt]; exact le_of_not_lt hgt
    constructor
    · rcases List.mem_cons.mp hmem with h | h
      · rw [h]
        by_cases hgt : q2.2 > p0.2
        · simp [hgt]
        · simp [hgt]
      · exact List.mem_cons_of_mem _ (List.mem_cons_of_mem _ h)
    · intro q hq
      rcases List.mem_cons.mp hq with rfl | hq
      · exact le_trans hp0le (hmax _ (List.mem_cons_self _ _))
      rcases List.mem_cons.mp hq with rfl | hq
      · exact le_trans hq2le (hmax _ (List.mem_cons_self _ _))
      · exact hmax q (List.mem_cons_of_mem _ hq)

theorem pyMaxSnd_max {l : List (Event × ℚ)} {p : Event × ℚ}
    (h : pyMaxSnd l = Except.ok p) : p ∈ l ∧ ∀ q ∈ l, q.2 ≤ p.2 := by
  cases l with
  | nil => rw [pyMaxSnd] at h; exact absurd h (by simp)
  | cons p0 rest =>
    rw [pyMaxSnd] at h
    obtain rfl := Except.ok.inj h
    exact pyfold_max rest p0

/-- The running maximum of the second components, seeded at `b` (the value
tracked by the root-selection loop). -/
def fmax (b : ℚ) (l : List (MapNode × ℚ)) : ℚ :=
  List.foldl (fun m q => max m q.2) b l

theorem fmax_nil (b : ℚ) : fmax b [] = b := rfl

theorem fmax_cons (b : ℚ) (p : MapNode × ℚ) (l : List (MapNode × ℚ)) :
    fmax b (p :: l) = fmax (max b p.2) l := by
  rw [fmax, List.foldl_cons]
  rfl

theorem fmax_init_le : ∀ (l : List (MapNode × ℚ)) (b : ℚ), b ≤ fmax b l := by
  intro l
  induction l with
  | nil => intro b; exact le_refl b
  | cons q l ih =>
    intro b
    rw [fmax_cons]
    calc b ≤ max b q.2 := le_max_left _ _
    _ ≤ fmax (max b q.2) l := ih _

theorem fmax_mem_le : ∀ (l : List (MapNode × ℚ)) (b : ℚ) (q : MapNode × ℚ),
    q ∈ l → q.2 ≤ fmax b l := by
  intro l
  induction l with
  | nil => intro b q hq; simp at hq
  | cons p l ih =>
    intro b q hq
    rw [fmax_cons]
    rcases List.mem_cons.mp hq with rfl | hq
    · calc q.2 ≤ max b q.2 := le_max_right _ _
      _ ≤ fmax (max b q.2) l := fmax_init_le l _
    · exact ih _ q hq

theorem fmax_attained : ∀ (l : List (MapNode × ℚ)) (b : ℚ),
    fmax b l = b ∨ ∃ q ∈ l, fmax b l = q.2 := by
  intro l
  induction l with
  | nil => intro b; exact Or.inl rfl
  | cons p l ih =>
    intro b
    rw [fmax_cons]
    rcases ih (max b p.2) with h | ⟨q, hq, h⟩
    · rcases le_total b p.2 with hle | hle
      · right
        exact ⟨p, List.mem_cons_self _ _, by rw [h, max_eq_right hle]⟩
      · left
        rw [h, max_eq_left hle]
    · right
      exact ⟨q, List.mem_cons_of_mem _ hq, h⟩

theorem brf_go : ∀ (l : List (MapNode × ℚ)) (b : ℚ) (rs : List MapNode),
    List.foldl brf_step (some b, rs) l =
      (some (fmax b l),
       (if fmax b l = b then rs else []) ++
         (l.filter (fun q => q.2 = fmax b l)).map (fun q => q.1)) := by
  intro l
  induction l with
  | nil => intro b rs; simp [fmax_nil]
  | cons p l ih =>
    intro b rs
    rw [List.foldl_cons, fmax_cons]
    rcases lt_trichotomy p.2 b with hlt | heq | hgt
    · have hstep : brf_step (some b, rs) p = (some b, rs) := by
        simp [brf_step, ne_of_lt hlt, not_lt_of_gt hlt]
      rw [hstep, ih, max_eq_left (le_of_lt hlt)]
      have hne : ¬ p.2 = fmax b l :=
        fun hp => absurd (fmax_init_le l b)
          (by rw [← hp]; exact not_le_of_gt hlt)
      simp [List.filter_cons, hne]
    · have hstep : brf_step (some b, rs) p = (some b, rs ++ [p.1]) := by
        simp [brf_step, heq]
      rw [hstep, ih, max_eq_left (le_of_eq heq)]
      by_cases hEb : fmax b l = b
      · simp [List.filter_cons, heq, hEb]
      · have hpf : ¬ (p.2 = fmax b l) := by
          rw [heq]; exact fun hh => hEb hh.symm
        simp [List.filter_cons, hpf, hEb]
    · have hne : ¬ p.2 = b := ne_of_gt hgt
      have hstep : brf_step (some b, rs) p = (some p.2, [p.1]) := by
        simp [brf_step, hne, hgt]
      rw [hstep, ih, max_eq_right (le_of_lt hgt)]
      have hble : b < fmax p.2 l := lt_of_lt_of_le hgt (fmax_init_le l p.2)
      have hnb : ¬ fmax p.2 l = b := ne_of_gt hble
      by_cases hEp : fmax p.2 l = p.2
      · simp [List.filter_cons, hEp, hnb, hne]
      · have hpf : ¬ (p.2 = fmax p.2 l) := fun hh => hEp hh.symm
        simp [List.filter_cons, hpf, hEp, hnb]

theorem median_entry_ties {g : ReconGraph} {es : EventScores} {sf : SumFreqs}
    {n : MapNode} {evs best : List Event} {m : ℚ}
    (hg : lookupA g n = some evs) (hne : ¬ evs = [cEvent])
    (h : median_entry g es sf n = Except.ok (best, m)) :
    (∀ ev ∈ evs, ∃ q, cand_total es sf ev = Except.ok q ∧ q ≤ m ∧
      (ev ∈ best ↔ q = m)) ∧
    ∃ ev ∈ evs, cand_total es sf ev = Except.ok m := by
  unfold median_entry at h
  simp only [getE, hg] at h
  obtain ⟨evs2, hevs2, h⟩ := except_bind_ok h
  obtain rfl := Except.ok.inj hevs2
  rw [if_neg hne] at h
  obtain ⟨pairs, hpairs, h⟩ := except_bind_ok h
  obtain ⟨mx, hmx, h⟩ := except_bind_ok h
  have hfin := Except.ok.inj h
  have hbest : (pairs.filter (fun p => p.2 = mx.2)).map (fun p => p.1) = best :=
    (Prod.ext_iff.mp hfin).1
  have hm : mx.2 = m := (Prod.ext_iff.mp hfin).2
  obtain ⟨hmapfst, hallp⟩ := cand_pairs_sound hpairs
  obtain ⟨hmxmem, hmxmax⟩ := pyMaxSnd_max hmx
  constructor
  · intro ev hev
    rw [← hmapfst] at hev
    obtain ⟨p, hp, hpe⟩ := List.mem_map.mp hev
    have hcp : cand_total es sf ev = Except.ok p.2 := by
      rw [← hpe]
      exact hallp p hp
    refine ⟨p.2, hcp, hm ▸ hmxmax p hp, ?_⟩
    constructor
    · intro hin
      rw [← hbest] at hin
      obtain ⟨p2, hp2, hp2e⟩ := List.mem_map.mp hin
      have hp2f := List.mem_filter.mp hp2
      have hc2 : cand_total es sf ev = Except.ok p2.2 := by
        rw [← hp2e]
        exact hallp p2 hp2f.1
      have hpq : p.2 = p2.2 := Except.ok.inj (hcp.symm.trans hc2)
      have hp2m : p2.2 = mx.2 := by
        have := hp2f.2
        simpa using this
      rw [hpq, hp2m, hm]
    · intro hqm
      rw [← hbest]
      have hpf : p ∈ pairs.filter (fun p => p.2 = mx.2) :=
        List.mem_filter.mpr ⟨hp, by simp [hqm, hm]⟩
      rw [← hpe]
      exact List.mem_map_of_mem _ hpf
  · refine ⟨mx.1, ?_, ?_⟩
    · rw [← hmapfst]
      exact List.mem_map_of_mem _ hmxmem
    · rw [← hm]
      exact hallp mx hmxmem

/-- C3: in `compute_median`, for every non-Contemporary mapping node the
selected event set is exactly the set of events whose candidate total
(running sums of the event's real children plus the event's score minus 0.5)
equals the maximum candidate total at that node — all tying events retained,
none discarded — and the root-selection loop retains exactly the roots whose
running sum equals the maximum over all given roots. -/
theorem c3_ties_preserved :
    (∀ (g : ReconGraph) (es : EventScores) (sf : SumFreqs) (n : MapNode)
       (evs best : List Event) (m : ℚ),
       lookupA g n = some evs → ¬ evs = [cEvent] →
       median_entry g es sf n = Except.ok (best, m) →
       (∀ ev ∈ evs, ∃ q, cand_total es sf ev = Except.ok q ∧ q ≤ m ∧
         (ev ∈ best ↔ q = m)) ∧
       ∃ ev ∈ evs, cand_total es sf ev = Except.ok m) ∧
    (∀ combos : List (MapNode × ℚ), combos ≠ [] →
       ∃ B : ℚ, (∀ q ∈ combos, q.2 ≤ B) ∧ (∃ q ∈ combos, q.2 = B) ∧
         (best_root_fold combos).2 =
           (combos.filter (fun q => q.2 = B)).map (fun q => q.1)) := by
  constructor
  · intro g es sf n evs best m hg hne h
    exact median_entry_ties hg hne h
  · intro combos hne
    match combos with
    | [] => exact absurd rfl hne
    | p :: l =>
      refine ⟨fmax p.2 l, ?_, ?_, ?_⟩
      · intro q hq
        rcases List.mem_cons.mp hq with rfl | hq
        · exact fmax_init_le l q.2
        · exact fmax_mem_le l p.2 q hq
      · rcases fmax_attained l p.2 with h | ⟨q, hq, h⟩
        · exact ⟨p, List.mem_cons_self _ _, h.symm⟩
        · exact ⟨q, List.mem_cons_of_mem _ hq, h.symm⟩
      · rw [best_root_fold, List.foldl_cons]
        have hstep : brf_step (none, []) p = (some p.2, [p.1]) := by
          simp [brf_step]
        rw [hstep, brf_go]
        by_cases hEp : fmax p.2 l = p.2
        · simp [List.filter_cons, hEp]
        · have hpf : ¬ (p.2 = fmax p.2 l) := fun hh => hEp hh.symm
          simp [List.filter_cons, hpf, hEp]

/-- The partial `sum_freqs` state right before `wN` is processed. -/
def wSf2 : SumFreqs := [(wB, ([cEvent], 1/2)), (wA, ([cEvent], 1/2))]

unseal Rat.add Rat.mul Rat.sub Rat.inv in
/-- Witness for C3: the mapping node `wN` offers two loss events with score
0.5 each and equal child sums; both achieve the maximum candidate total 0.5
and BOTH are kept in the selected event set. -/
theorem c3_ties_preserved_witness :
    (∀ ev ∈ [wL1, wL2], ∃ q, cand_total wEs wSf2 ev = Except.ok q ∧
      q ≤ 1/2 ∧ (ev ∈ [wL1, wL2] ↔ q = 1/2)) ∧
    ∃ ev ∈ [wL1, wL2], cand_total wEs wSf2 ev = Except.ok (1/2) :=
  c3_ties_preserved.1 wGraph wEs wSf2 wN [wL1, wL2] [wL1, wL2] (1/2)
    (by decide) (by decide) (by decide)

theorem mem_updateA {α β : Type} [DecidableEq α] :
    ∀ {u l : List (α × β)} {p : α × β}, p ∈ updateA l u → p ∈ l ∨ p ∈ u := by
  intro u
  induction u with
  | nil => intro l p hp; exact Or.inl hp
  | cons q u ih =>
    intro l p hp
    rw [updateA, List.foldl_cons] at hp
    rcases ih hp with h | h
    · rcases mem_setA h with rfl | h
      · right
        rw [Prod.mk.eta]
        exact List.mem_cons_self _ _
      · exact Or.inl h
    · exact Or.inr (List.mem_cons_of_mem _ h)

theorem median_entry_subset {g : ReconGraph} {es : EventScores}
    {sf : SumFreqs} {n : MapNode} {best : List Event} {m : ℚ}
    (h : median_entry g es sf n = Except.ok (best, m)) :
    ∃ evs, lookupA g n = some evs ∧ ∀ ev ∈ best, ev ∈ evs := by
  unfold median_entry at h
  cases hg : lookupA g n with
  | none => simp [getE, hg, Bind.bind, Except.bind] at h
  | some evs =>
    simp only [getE, hg] at h
    obtain ⟨evs2, hevs2, h⟩ := except_bind_ok h
    obtain rfl := Except.ok.inj hevs2
    refine ⟨evs, rfl, ?_⟩
    by_cases hc : evs = [cEvent]
    · rw [if_pos hc] at h
      have hfin := Except.ok.inj h
      injection hfin with hb hm
      intro ev hev
      rw [← hb] at hev
      rw [hc]
      exact hev
    · rw [if_neg hc] at h
      obtain ⟨pairs, hpairs, h⟩ := except_bind_ok h
      obtain ⟨mx, hmx, h⟩ := except_bind_ok h
      have hfin := Except.ok.inj h
      injection hfin with hbest hm
      obtain ⟨hmapfst, _⟩ := cand_pairs_sound hpairs
      intro ev hev
      rw [← hbest] at hev
      obtain ⟨p, hp, hpe⟩ := List.mem_map.mp hev
      have hpm : p ∈ pairs := (List.mem_filter.mp hp).1
      rw [← hmapfst, ← hpe]
      exact List.mem_map_of_mem _ hpm

/-- Every entry of `sum_freqs` selects a subset of the node's events in the
graph. -/
def SelOK (g : ReconGraph) (sf : SumFreqs) : Prop :=
  ∀ p ∈ sf, ∃ evs, lookupA g p.1 = some evs ∧ ∀ ev ∈ p.2.1, ev ∈ evs

theorem median_fold_selOK (g : ReconGraph) (es : EventScores) :
    ∀ (post : List MapNode) (sf0 r : SumFreqs), SelOK g sf0 →
      List.foldlM (median_step g es) sf0 post = Except.ok r → SelOK g r := by
  intro post
  induction post with
  | nil =>
    intro sf0 r h0 h
    rw [List.foldlM_nil] at h
    obtain rfl := Except.ok.inj h
    exact h0
  | cons n rest ih =>
    intro sf0 r h0 h
    rw [List.foldlM_cons] at h
    obtain ⟨a, hstep, hrest⟩ := except_bind_ok h
    rw [median_step] at hstep
    obtain ⟨e, he, hp⟩ := except_bind_ok hstep
    obtain rfl := Except.ok.inj hp
    refine ih _ r ?_ hrest
    intro p hp2
    rcases mem_setA hp2 with rfl | hp2
    · exact median_entry_subset he
    · exact h0 p hp2

theorem bdrg_go_sub (ed : List (MapNode × List Event)) :
    ∀ (f : Nat) (t : Sum MapNode (List Event)) (acc r : ReconGraph),
      bdrg_go ed f t acc = Except.ok r →
      ∀ p ∈ r, p ∈ acc ∨ lookupA ed p.1 = some p.2 := by
  intro f
  induction f with
  | zero => intro t acc r h; rw [bdrg_go] at h; simp at h
  | succ f ih =>
    intro t acc r h
    cases t with
    | inl n =>
      rw [bdrg_go] at h
      cases ha : lookupA acc n with
      | some evs0 =>
        simp only [ha] at h
        obtain rfl := Except.ok.inj h
        exact fun p hp => Or.inl hp
      | none =>
        simp only [ha] at h
        cases he : lookupA ed n with
        | none => simp [he] at h
        | some evs =>
          simp only [he] at h
          intro p hp
          rcases ih _ _ _ h p hp with hin | hlk
          · rcases mem_setA hin with rfl | hin
            · exact Or.inr he
            · exact Or.inl hin
          · exact Or.inr hlk
    | inr evs =>
      cases evs with
      | nil =>
        rw [bdrg_go] at h
        obtain rfl := Except.ok.inj h
        exact fun p hp => Or.inl hp
      | cons ev rest =>
        rw [bdrg_go] at h
        cases h1 : (if ev.c1 = sentinel then Except.pure acc
            else bdrg_go ed f (Sum.inl ev.c1) acc : Except String ReconGraph) with
        | error e => simp [h1] at h
        | ok a1 =>
          simp only [h1] at h
          cases h2 : (if ev.c2 = sentinel then Except.pure a1
              else bdrg_go ed f (Sum.inl ev.c2) a1 : Except String ReconGraph) with
          | error e => simp [h2] at h
          | ok a2 =>
            simp only [h2] at h
            intro p hp
            rcases ih _ _ _ h p hp with hin2 | hlk
            · have hfrom1 : p ∈ a1 ∨ lookupA ed p.1 = some p.2 := by
                by_cases hs : ev.c2 = sentinel
                · rw [if_pos hs] at h2
                  obtain rfl := Except.ok.inj h2
                  exact Or.inl hin2
                · rw [if_neg hs] at h2
                  exact ih _ _ _ h2 p hin2
              rcases hfrom1 with hin1 | hlk
              · by_cases hs : ev.c1 = sentinel
                · rw [if_pos hs] at h1
                  obtain rfl := Except.ok.inj h1
                  exact Or.inl hin1
                · rw [if_neg hs] at h1
                  exact ih _ _ _ h1 p hin1
              · exact Or.inr hlk
            · exact Or.inr hlk

theorem build_graph_sub (fuel : Nat) (ed : List (MapNode × List Event)) :
    ∀ (roots : List MapNode) (acc r : ReconGraph),
      List.foldlM (fun acc rt => bdrg_go ed fuel (Sum.inl rt) acc) acc roots =
        Except.ok r →
      ∀ p ∈ r, p ∈ acc ∨ lookupA ed p.1 = some p.2 := by
  intro roots
  induction roots with
  | nil =>
    intro acc r h
    rw [List.foldlM_nil] at h
    obtain rfl := Except.ok.inj h
    exact fun p hp => Or.inl hp
  | cons rt roots ih =>
    intro acc r h
    rw [List.foldlM_cons] at h
    obtain ⟨a, ha, hrest⟩ := except_bind_ok h
    intro p hp
    rcases ih _ _ hrest p hp with hin | hlk
    · exact bdrg_go_sub ed fuel (Sum.inl rt) acc a ha p hin
    · exact Or.inr hlk

theorem check_subgraph_true_of (g med : ReconGraph)
    (h : ∀ p ∈ med, ∃ evs, lookupA g p.1 = some evs ∧ ∀ ev ∈ p.2, ev ∈ evs) :
    check_subgraph g med = true := by
  rw [check_subgraph, List.all_eq_true]
  intro p hp
  obtain ⟨evs, hevs, hsub⟩ := h p hp
  simp only [hevs]
  rw [List.all_eq_true]
  intro ev hev
  simpa using hsub ev hev

theorem lookupA_map_fst {sf : SumFreqs} {k : MapNode} {v : List Event} :
    lookupA (sf.map (fun p => (p.1, p.2.1))) k = some v →
    ∃ s, lookupA sf k = some (v, s) := by
  induction sf with
  | nil => intro h; simp [lookupA] at h
  | cons x sf ih =>
    intro h
    rw [List.map_cons, lookupA] at h
    by_cases hx : x.1 = k
    · simp only [hx, if_true] at h
      obtain rfl := Option.some_inj.mp h
      rw [lookupA]
      simp only [hx, if_true]
      exact ⟨x.2.2, by rw [Prod.mk.eta]⟩
    · simp only [hx, if_false] at h
      rw [lookupA]
      simp only [hx, if_false]
      exact ih h

/-- C4: the median graph built by `compute_median` always satisfies
`check_subgraph` against the input graph — whenever the run reaches the
assertion (the `sum_freqs` pass and the median-graph build both completed),
the check is true, so the assertion never fails; in particular any completed
run of `compute_median` returns a median graph passing `check_subgraph`. -/
theorem c4_median_is_subgraph :
    (∀ (fuel : Nat) (g : ReconGraph) (es : EventScores)
       (post : List MapNode) (sf : SumFreqs) (roots : List MapNode)
       (med : ReconGraph),
       median_sum_freqs g es post = Except.ok sf →
       build_dtl_recon_graph fuel roots (sf.map (fun p => (p.1, p.2.1))) =
         Except.ok med →
       check_subgraph g med = true) ∧
    (∀ (fuel : Nat) (g : ReconGraph) (es : EventScores)
       (post : List MapNode) (roots : List MapNode) (med : ReconGraph)
       (k : Nat) (rs : List MapNode),
       compute_median fuel g es post roots = Except.ok (med, k, rs) →
       check_subgraph g med = true) := by
  have part1 : ∀ (fuel : Nat) (g : ReconGraph) (es : EventScores)
      (post : List MapNode) (sf : SumFreqs) (roots : List MapNode)
      (med : ReconGraph),
      median_sum_freqs g es post = Except.ok sf →
      build_dtl_recon_graph fuel roots (sf.map (fun p => (p.1, p.2.1))) =
        Except.ok med →
      check_subgraph g med = true := by
    intro fuel g es post sf roots med hsf hbuild
    have hsel : SelOK g sf :=
      median_fold_selOK g es post [] sf (by intro p hp; simp at hp) hsf
    apply check_subgraph_true_of
    intro p hp
    rw [build_dtl_recon_graph] at hbuild
    rcases build_graph_sub fuel _ roots [] med hbuild p hp with hin | hlk
    · simp at hin
    · obtain ⟨s, hs⟩ := lookupA_map_fst hlk
      have hmem := lookupA_mem hs
      obtain ⟨evs, hevs, hsub⟩ := hsel (p.1, (p.2, s)) hmem
      exact ⟨evs, hevs, hsub⟩
  refine ⟨part1, ?_⟩
  intro fuel g es post roots med k rs h
  unfold compute_median at h
  obtain ⟨sf, hsf, h⟩ := except_bind_ok h
  obtain ⟨combos, hcombos, h⟩ := except_bind_ok h
  obtain ⟨medg, hbuild, h⟩ := except_bind_ok h
  by_cases hchk : check_subgraph g medg = true
  · cases hw : count_mprs_wrapper fuel (best_root_fold combos).2 medg with
    | none => rw [if_pos hchk] at h; simp [hw] at h
    | some nmed =>
      rw [if_pos hchk] at h
      simp only [hw] at h
      have hfin := Except.ok.inj h
      injection hfin with hmed hrest2
      rw [← hmed]
      exact hchk
  · rw [if_neg hchk] at h
    simp at h

/-- The median graph returned by `compute_median` on `wGraph`. -/
def wMed : ReconGraph := [(wB, [cEvent]), (wA, [cEvent]), (wN, [wL1, wL2])]

unseal Rat.add Rat.mul Rat.sub Rat.inv in
/-- Witness for C4: the concrete median run on `wGraph` returns a median
graph passing `check_subgraph`. -/
theorem c4_median_is_subgraph_witness : check_subgraph wGraph wMed = true :=
  c4_median_is_subgraph.2 20 wGraph wEs wPost [wN] wMed 2 [wN] (by decide)

/-- The dict built by `build_median_recon_graph` on `wGraph`, whose entry at
`wN` keeps BOTH tied events. -/
def c5Res : ReconGraph := [(wA, [cEvent]), (wN, [wL1, wL2])]

/-- C5 is false as stated: on an event dict with a two-event tie at `wN`,
`build_median_recon_graph` binds `wN` to its WHOLE two-event list — not to
exactly one event (the first of the list); only the recursion follows the
first event. -/
theorem c5_full_list_counterexample :
    build_median_recon_graph 10 wGraph wN = Except.ok c5Res ∧
    lookupA c5Res wN = some [wL1, wL2] ∧
    ([wL1, wL2] : List Event).length ≠ 1 := by
  refine ⟨by decide, by decide, by decide⟩

theorem bmrg_entries : ∀ (fuel : Nat) (ed : List (MapNode × List Event))
    (root : MapNode) (r : ReconGraph),
    build_median_recon_graph fuel ed root = Except.ok r →
    ∀ p ∈ r, lookupA ed p.1 = some p.2 := by
  intro fuel
  induction fuel with
  | zero =>
    intro ed root r h
    rw [build_median_recon_graph] at h
    simp at h
  | succ f ih =>
    intro ed root r h
    rw [build_median_recon_graph] at h
    cases hg : lookupA ed root with
    | none => simp [getE, hg, Bind.bind, Except.bind] at h
    | some evs =>
      simp only [getE, hg] at h
      obtain ⟨evs2, hevs2, h⟩ := except_bind_ok h
      obtain rfl := Except.ok.inj hevs2
      cases evs with
      | nil => simp [Bind.bind, Except.bind] at h
      | cons e0 tail =>
        obtain ⟨e02, he02, h⟩ := except_bind_ok h
        obtain rfl := Except.ok.inj he02
        by_cases hL : e0.t = EType.L
        · rw [if_pos hL] at h
          obtain ⟨sub, hsub, h⟩ := except_bind_ok h
          obtain rfl := Except.ok.inj h
          intro p hp
          rcases mem_updateA hp with hp | hp
          · rcases List.mem_cons.mp hp with rfl | hp
            · exact hg
            · simp at hp
          · exact ih ed e0.c1 sub hsub p hp
        · rw [if_neg hL] at h
          by_cases hT : e0.t = EType.T ∨ e0.t = EType.S ∨ e0.t = EType.D
          · rw [if_pos hT] at h
            obtain ⟨sub1, hsub1, h⟩ := except_bind_ok h
            obtain ⟨sub2, hsub2, h⟩ := except_bind_ok h
            obtain rfl := Except.ok.inj h
            intro p hp
            rcases mem_updateA hp with hp | hp
            · rcases mem_updateA hp with hp | hp
              · rcases List.mem_cons.mp hp with rfl | hp
                · exact hg
                · simp at hp
              · exact ih ed e0.c1 sub1 hsub1 p hp
            · exact ih ed e0.c2 sub2 hsub2 p hp
          · rw [if_neg hT] at h
            obtain rfl := Except.ok.inj h
            intro p hp
            rcases List.mem_cons.mp hp with rfl | hp
            · exact hg
            · simp at hp

/-- C5 amended: whenever `build_median_recon_graph` completes, it binds
every included mapping node to its FULL event list from the event dict (the
recursion merely follows the first event of each list); in particular, when
every value of the dict is a one-event list the result is a single-path
reconciliation graph binding each included node to its only (= first)
event. -/
theorem c5_full_lists_single_path_when_singleton :
    (∀ (fuel : Nat) (ed : List (MapNode × List Event)) (root : MapNode)
       (r : ReconGraph), build_median_recon_graph fuel ed root = Except.ok r →
       ∀ p ∈ r, lookupA ed p.1 = some p.2) ∧
    (∀ (fuel : Nat) (ed : List (MapNode × List Event)) (root : MapNode)
       (r : ReconGraph), (∀ p ∈ ed, p.2.length = 1) →
       build_median_recon_graph fuel ed root = Except.ok r →
       ∀ p ∈ r, ∃ e, p.2 = [e] ∧ lookupA ed p.1 = some [e]) := by
  refine ⟨bmrg_entries, ?_⟩
  intro fuel ed root r hsingle h p hp
  have hlk := bmrg_entries fuel ed root r h p hp
  have hmem := lookupA_mem hlk
  have hlen := hsingle (p.1, p.2) hmem
  obtain ⟨e, he⟩ := List.length_eq_one.mp hlen
  exact ⟨e, he, by rw [← he]; exact hlk⟩

/-- A singleton-valued event dict and the single-path result built from it. -/
def wEdS : List (MapNode × List Event) := [(wN, [wL1]), (wA, [cEvent])]

def wSingle : ReconGraph := [(wA, [cEvent]), (wN, [wL1])]

/-- Witness for the amended C5: on a singleton-valued dict the built graph
binds each included node to its only event. -/
theorem c5_full_lists_single_path_when_singleton_witness :
    ∀ p ∈ wSingle, ∃ e, p.2 = [e] ∧ lookupA wEdS p.1 = some [e] :=
  c5_full_lists_single_path_when_singleton.2 10 wEdS wN wSingle
    (by decide) (by decide)

theorem entries_to_check (med r : ReconGraph)
    (h : ∀ p ∈ r, ∃ e evs, lookupA med p.1 = some evs ∧ e ∈ evs ∧ p.2 = [e]) :
    check_subgraph med r = true := by
  apply check_subgraph_true_of
  intro p hp
  obtain ⟨e, evs, hlk, hev, hpe⟩ := h p hp
  refine ⟨evs, hlk, ?_⟩
  rw [hpe]
  intro x hx
  rcases List.mem_cons.mp hx with rfl | hx
  · exact hev
  · simp at hx

/-- C9: whenever `choose_random_median` returns, every mapping node of the
returned dict is bound to a one-element event list whose event is drawn from
that node's event list in the median graph, and the result passes
`check_subgraph` against the median; moreover the internal subgraph
assertion can never fail (no run of any fuel, oracle, or input returns the
assertion error). -/
theorem c9_random_median_single_path_subgraph :
    ∀ (fuel : Nat) (rng : Nat → Nat) (step : Nat)
    (med : ReconGraph) (n : MapNode),
    (∀ (r : ReconGraph) (s2 : Nat),
      choose_random_median fuel rng step med n = Except.ok (r, s2) →
      (∀ p ∈ r, ∃ e evs, lookupA med p.1 = some evs ∧ e ∈ evs ∧ p.2 = [e]) ∧
      check_subgraph med r = true) ∧
    choose_random_median fuel rng step med n ≠ Except.error "assert-subgraph" := by
  intro fuel
  induction fuel with
  | zero =>
    intro rng step med n
    constructor
    · intro r s2 h
      rw [choose_random_median] at h
      simp at h
    · rw [choose_random_median]
      simp
  | succ f ih =>
    intro rng step med n
    cases hlk : lookupA med n with
    | none =>
      constructor
      · intro r s2 h
        rw [choose_random_median] at h
        simp [hlk] at h
      · intro h
        rw [choose_random_median] at h
        simp [hlk] at h
    | some evs =>
      cases evs with
      | nil =>
        constructor
        · intro r s2 h
          rw [choose_random_median] at h
          simp [hlk] at h
        · intro h
          rw [choose_random_median] at h
          simp [hlk] at h
      | cons e rest =>
        have hnemem : pyChoice (rng step) (e :: rest) e ∈ e :: rest := by
          rw [pyChoice]
          by_cases hi : rng step % (e :: rest).length < (e :: rest).length
          · rw [List.getD_eq_getElem _ _ hi]
            exact List.getElem_mem hi
          · rw [List.getD_eq_default _ _ (le_of_not_lt hi)]
            exact List.mem_cons_self _ _
        constructor
        · intro r s2 h
          rw [choose_random_median] at h
          simp only [hlk] at h
          split at h
          · simp at h
          · rename_i accPair heq
            have hentry : ∀ p ∈ accPair.1,
                ∃ e2 evs, lookupA med p.1 = some evs ∧ e2 ∈ evs ∧ p.2 = [e2] := by
              by_cases hL : (pyChoice (rng step) (e :: rest) e).t = EType.L
              · rw [if_pos hL] at heq
                cases hsub : choose_random_median f rng (step + 1) med
                    (pyChoice (rng step) (e :: rest) e).c1 with
                | error er => simp only [hsub] at heq; simp at heq
                | ok sub =>
                  simp only [hsub] at heq
                  obtain rfl := Except.ok.inj heq
                  intro p hp
                  rcases mem_updateA hp with hp | hp
                  · rcases List.mem_cons.mp hp with rfl | hp
                    · exact ⟨_, e :: rest, hlk, hnemem, rfl⟩
                    · simp at hp
                  · exact ((ih rng (step + 1) med _).1 sub.1 sub.2 hsub).1 p hp
              · rw [if_neg hL] at heq
                by_cases hT : (pyChoice (rng step) (e :: rest) e).t = EType.T ∨
                    (pyChoice (rng step) (e :: rest) e).t = EType.S ∨
                    (pyChoice (rng step) (e :: rest) e).t = EType.D
                · rw [if_pos hT] at heq
                  cases hsub1 : choose_random_median f rng (step + 1) med
                      (pyChoice (rng step) (e :: rest) e).c1 with
                  | error er => simp only [hsub1] at heq; simp at heq
                  | ok sub1 =>
                    simp only [hsub1] at heq
                    cases hsub2 : choose_random_median f rng sub1.2 med
                        (pyChoice (rng step) (e :: rest) e).c2 with
                    | error er => simp only [hsub2] at heq; simp at heq
                    | ok sub2 =>
                      simp only [hsub2] at heq
                      obtain rfl := Except.ok.inj heq
                      intro p hp
                      rcases mem_updateA hp with hp | hp
                      · rcases mem_updateA hp with hp | hp
                        · rcases List.mem_cons.mp hp with rfl | hp
                          · exact ⟨_, e :: rest, hlk, hnemem, rfl⟩
                          · simp at hp
                        · exact ((ih rng (step + 1) med _).1 sub1.1 sub1.2
                            hsub1).1 p hp
                      · exact ((ih rng sub1.2 med _).1 sub2.1 sub2.2
                          hsub2).1 p hp
                · rw [if_neg hT] at heq
                  obtain rfl := Except.ok.inj heq
                  intro p hp
                  rcases List.mem_cons.mp hp with rfl | hp
                  · exact ⟨_, e :: rest, hlk, hnemem, rfl⟩
                  · simp at hp
            rw [if_pos (entries_to_check med accPair.1 hentry)] at h
            obtain hacc := Except.ok.inj h
            have hr : accPair.1 = r := by
              rw [hacc]
            rw [← hr]
            exact ⟨hentry, entries_to_check med accPair.1 hentry⟩
        · intro h
          rw [choose_random_median] at h
          simp only [hlk] at h
          split at h
          · rename_i er heq
            have her : er = "assert-subgraph" := Except.error.inj h
            rw [her] at heq
            by_cases hL : (pyChoice (rng step) (e :: rest) e).t = EType.L
            · rw [if_pos hL] at heq
              cases hsub : choose_random_median f rng (step + 1) med
                  (pyChoice (rng step) (e :: rest) e).c1 with
              | error er2 =>
                simp only [hsub] at heq
                have he2 : er2 = "assert-subgraph" := Except.error.inj heq
                rw [he2] at hsub
                exact (ih rng (step + 1) med _).2 hsub
              | ok sub => simp only [hsub] at heq; simp at heq
            · rw [if_neg hL] at heq
              by_cases hT : (pyChoice (rng step) (e :: rest) e).t = EType.T ∨
                  (pyChoice (rng step) (e :: rest) e).t = EType.S ∨
                  (pyChoice (rng step) (e :: rest) e).t = EType.D
              · rw [if_pos hT] at heq
                cases hsub1 : choose_random_median f rng (step + 1) med
                    (pyChoice (rng step) (e :: rest) e).c1 with
                | error er2 =>
                  simp only [hsub1] at heq
                  have he2 : er2 = "assert-subgraph" := Except.error.inj heq
                  rw [he2] at hsub1
                  exact (ih rng (step + 1) med _).2 hsub1
                | ok sub1 =>
                  simp only [hsub1] at heq
                  cases hsub2 : choose_random_median f rng sub1.2 med
                      (pyChoice (rng step) (e :: rest) e).c2 with
                  | error er2 =>
                    simp only [hsub2] at heq
                    have he2 : er2 = "assert-subgraph" := Except.error.inj heq
                    rw [he2] at hsub2
                    exact (ih rng sub1.2 med _).2 hsub2
                  | ok sub2 => simp only [hsub2] at heq; simp at heq
              · rw [if_neg hT] at heq
                simp at heq
          · rename_i accPair heq
            have hentry : ∀ p ∈ accPair.1,
                ∃ e2 evs, lookupA med p.1 = some evs ∧ e2 ∈ evs ∧ p.2 = [e2] := by
              by_cases hL : (pyChoice (rng step) (e :: rest) e).t = EType.L
              · rw [if_pos hL] at heq
                cases hsub : choose_random_median f rng (step + 1) med
                    (pyChoice (rng step) (e :: rest) e).c1 with
                | error er => simp only [hsub] at heq; simp at heq
                | ok sub =>
                  simp only [hsub] at heq
                  obtain rfl := Except.ok.inj heq
                  intro p hp
                  rcases mem_updateA hp with hp | hp
                  · rcases List.mem_cons.mp hp with rfl | hp
                    · exact ⟨_, e :: rest, hlk, hnemem, rfl⟩
                    · simp at hp
                  · exact ((ih rng (step + 1) med _).1 sub.1 sub.2 hsub).1 p hp
              · rw [if_neg hL] at heq
                by_cases hT : (pyChoice (rng step) (e :: rest) e).t = EType.T ∨
                    (pyChoice (rng step) (e :: rest) e).t = EType.S ∨
                    (pyChoice (rng step) (e :: rest) e).t = EType.D
                · rw [if_pos hT] at heq
                  cases hsub1 : choose_random_median f rng (step + 1) med
                      (pyChoice (rng step) (e :: rest) e).c1 with
                  | error er => simp only [hsub1] at heq; simp at heq
                  | ok sub1 =>
                    simp only [hsub1] at heq
                    cases hsub2 : choose_random_median f rng sub1.2 med
                        (pyChoice (rng step) (e :: rest) e).c2 with
                    | error er => simp only [hsub2] at heq; simp at heq
                    | ok sub2 =>
                      simp only [hsub2] at heq
                      obtain rfl := Except.ok.inj heq
                      intro p hp
                      rcases mem_updateA hp with hp | hp
                      · rcases mem_updateA hp with hp | hp
                        · rcases List.mem_cons.mp hp with rfl | hp
                          · exact ⟨_, e :: rest, hlk, hnemem, rfl⟩
                          · simp at hp
                        · exact ((ih rng (step + 1) med _).1 sub1.1 sub1.2
                            hsub1).1 p hp
                      · exact ((ih rng sub1.2 med _).1 sub2.1 sub2.2
                          hsub2).1 p hp
                · rw [if_neg hT] at heq
                  obtain rfl := Except.ok.inj heq
                  intro p hp
                  rcases List.mem_cons.mp hp with rfl | hp
                  · exact ⟨_, e :: rest, hlk, hnemem, rfl⟩
                  · simp at hp
            rw [if_pos (entries_to_check med accPair.1 hentry)] at h
            simp at h

/-- Witness for C9: a concrete completed sampling run on the single-path
median `wEdS` returns the one-event-per-node dict `wSingle`, each entry
drawn from the median graph's event list, and passes `check_subgraph`. -/
theorem c9_random_median_single_path_subgraph_witness :
    (∀ p ∈ wSingle, ∃ e evs, lookupA wEdS p.1 = some evs ∧ e ∈ evs ∧
      p.2 = [e]) ∧
    check_subgraph wEdS wSingle = true :=
  (c9_random_median_single_path_subgraph 5 (fun _ => 0) 0 wEdS wN).1
    wSingle 2 (by decide)

theorem fold_setA_lookup_notmem (f : Nat → Nat) :
    ∀ (l : List String) (k : Nat) (d : List (Option String × Nat)) (x : String),
      x ∉ l →
      lookupA ((List.enumFrom k l).foldl
        (fun d2 p => setA d2 (some p.2) (f p.1)) d) (some x) =
      lookupA d (some x) := by
  intro l
  induction l with
  | nil => intro k d x hx; rfl
  | cons y ys ih =>
    intro k d x hx
    rw [List.enumFrom_cons, List.foldl_cons]
    have hxy : ¬ x = y := fun h => hx (h ▸ List.mem_cons_self y ys)
    rw [ih (k + 1) _ x (fun h => hx (List.mem_cons_of_mem _ h))]
    exact lookupA_setA_ne _ _ (fun h => hxy (Option.some_inj.mp h).symm)

theorem fold_setA_lookup_mem (f : Nat → Nat) :
    ∀ (l : List String) (k : Nat) (d : List (Option String × Nat)) (x : String),
      l.Nodup → x ∈ l →
      lookupA ((List.enumFrom k l).foldl
        (fun d2 p => setA d2 (some p.2) (f p.1)) d) (some x) =
      some (f (k + List.indexOf x l)) := by
  intro l
  induction l with
  | nil => intro k d x _ hx; simp at hx
  | cons y ys ih =>
    intro k d x hnd hx
    rw [List.enumFrom_cons, List.foldl_cons]
    by_cases hxy : x = y
    · subst hxy
      have hnotin : x ∉ ys := (List.nodup_cons.mp hnd).1
      rw [fold_setA_lookup_notmem f ys (k + 1) _ x hnotin]
      rw [lookupA_setA_self, List.indexOf_cons_self]
      simp
    · have hmem : x ∈ ys := by
        rcases List.mem_cons.mp hx with h | h
        · exact absurd h hxy
        · exact h
      rw [ih (k + 1) _ x (List.nodup_cons.mp hnd).2 hmem]
      rw [List.indexOf_cons_ne ys (fun h => hxy h.symm)]
      have harith : k + 1 + List.indexOf x ys = k + (List.indexOf x ys).succ := by
        omega
      rw [harith]

theorem keyed_nodes_spec (glv slv : List (Option String × Nat)) :
    ∀ (nodes : List MapNode) (key : MapNode → Nat),
      (∀ n ∈ nodes, ∃ a b, lookupA glv n.1 = some a ∧ lookupA slv n.2 = some b ∧
        a + b = key n) →
      keyed_nodes glv slv nodes = some (nodes.map (fun n => (n, key n))) := by
  intro nodes key
  induction nodes with
  | nil => intro h; rfl
  | cons n rest ih =>
    intro h
    obtain ⟨a, b, ha, hb, hab⟩ := h n (List.mem_cons_self _ _)
    rw [keyed_nodes, ha, hb, ih (fun m hm => h m (List.mem_cons_of_mem _ hm))]
    simp [Bind.bind, Option.bind, hab]

/-- The sort key the source assigns to a mapping node: position of its gene
component in the gene ordering times the species-node count, plus the
position of its species component in the species ordering. -/
def nodeRank (genes species : List String) (n : MapNode) : Nat :=
  match n.1, n.2 with
  | some g, some s =>
    List.indexOf g genes * species.length + List.indexOf s species
  | _, _ => 0

theorem rank_le_iff_lex {gi gj si sj S : Nat} (hsi : si < S) (hsj : sj < S) :
    (gi * S + si ≤ gj * S + sj) ↔
      (gi < gj ∨ (gi = gj ∧ si ≤ sj)) := by
  constructor
  · intro h
    rcases lt_trichotomy gi gj with h1 | h1 | h1
    · exact Or.inl h1
    · refine Or.inr ⟨h1, ?_⟩
      subst h1
      exact Nat.le_of_add_le_add_left h
    · exfalso
      have h2 : gj + 1 ≤ gi := h1
      have h3 : (gj + 1) * S ≤ gi * S := Nat.mul_le_mul_right S h2
      rw [Nat.add_mul, Nat.one_mul] at h3
      linarith
  · intro h
    rcases h with h1 | ⟨h1, h2⟩
    · have h2 : gi + 1 ≤ gj := h1
      have h3 : (gi + 1) * S ≤ gj * S := Nat.mul_le_mul_right S h2
      rw [Nat.add_mul, Nat.one_mul] at h3
      linarith
    · subst h1
      exact Nat.add_le_add_left h2 _

/-- C8: for node orderings covering (without duplicates) the components of
the given mapping nodes, `mapping_node_sort` returns the mapping nodes
sorted by the rank gene-index * species-count + species-index, which orders
them lexicographically: primarily by the position of the gene component in
the supplied gene ordering, and among equal gene components by the position
of the species component in the supplied species ordering, regardless of the
sizes of the two node lists. -/
theorem c8_sort_lexicographic :
    ∀ (genes species : List String) (nodes : List MapNode),
      genes.Nodup → species.Nodup →
      (∀ n ∈ nodes, (∃ g ∈ genes, n.1 = some g) ∧
        (∃ s ∈ species, n.2 = some s)) →
      ∃ out, mapping_node_sort genes species nodes = some out ∧
        out.Perm nodes ∧
        out.Pairwise (fun a b =>
          nodeRank genes species a ≤ nodeRank genes species b) ∧
        out.Pairwise (fun a b => ∀ ga sa gb sb,
          a.1 = some ga → a.2 = some sa → b.1 = some gb → b.2 = some sb →
          (List.indexOf ga genes < List.indexOf gb genes ∨
           (List.indexOf ga genes = List.indexOf gb genes ∧
            List.indexOf sa species ≤ List.indexOf sb species))) := by
  intro genes species nodes hgn hsn hwf
  have hkey : ∀ n ∈ nodes, ∃ a b,
      lookupA (genes.enum.foldl
        (fun d p => setA d (some p.2) (p.1 * species.length)) []) n.1 =
        some a ∧
      lookupA (species.enum.foldl
        (fun d p => setA d (some p.2) p.1) []) n.2 = some b ∧
      a + b = nodeRank genes species n := by
    intro n hn
    obtain ⟨⟨g, hg, hg2⟩, ⟨s, hs, hs2⟩⟩ := hwf n hn
    refine ⟨List.indexOf g genes * species.length, List.indexOf s species,
      ?_, ?_, ?_⟩
    · rw [hg2]
      have hl := fold_setA_lookup_mem (fun i => i * species.length) genes 0 []
        g hgn hg
      simpa using hl
    · rw [hs2]
      have hl := fold_setA_lookup_mem (fun i => i) species 0 [] s hsn hs
      simpa using hl
    · obtain ⟨n1, n2⟩ := n
      simp at hg2 hs2
      rw [nodeRank]
      simp [hg2, hs2]
  have hkeyed := keyed_nodes_spec _ _ nodes (nodeRank genes species) hkey
  have hsort : mapping_node_sort genes species nodes =
      some ((List.insertionSort (fun p q => p.2 ≤ q.2)
        (nodes.map (fun n => (n, nodeRank genes species n)))).map
          (fun p => p.1)) := by
    simp only [mapping_node_sort]
    rw [hkeyed]
    rfl
  have hperm0 : (List.insertionSort (fun p q : MapNode × Nat => p.2 ≤ q.2)
      (nodes.map (fun n => (n, nodeRank genes species n)))).Perm
      (nodes.map (fun n => (n, nodeRank genes species n))) :=
    List.perm_insertionSort _ _
  have hperm : ((List.insertionSort (fun p q : MapNode × Nat => p.2 ≤ q.2)
      (nodes.map (fun n => (n, nodeRank genes species n)))).map
        (fun p => p.1)).Perm nodes := by
    have hcomp : ((fun p : MapNode × Nat => p.1) ∘
        (fun n : MapNode => (n, nodeRank genes species n))) = id := rfl
    have hm := hperm0.map (fun p => p.1)
    rw [List.map_map, hcomp, List.map_id] at hm
    exact hm
  haveI : IsTotal (MapNode × Nat) (fun p q => p.2 ≤ q.2) :=
    ⟨fun a b => Nat.le_total a.2 b.2⟩
  haveI : IsTrans (MapNode × Nat) (fun p q => p.2 ≤ q.2) :=
    ⟨fun a b c h1 h2 => Nat.le_trans h1 h2⟩
  have hsorted := List.sorted_insertionSort
    (fun p q : MapNode × Nat => p.2 ≤ q.2)
    (nodes.map (fun n => (n, nodeRank genes species n)))
  have hmemkey : ∀ p ∈ List.insertionSort (fun p q : MapNode × Nat => p.2 ≤ q.2)
      (nodes.map (fun n => (n, nodeRank genes species n))),
      p.2 = nodeRank genes species p.1 ∧ p.1 ∈ nodes := by
    intro p hp
    have hp2 := (hperm0.mem_iff).mp hp
    obtain ⟨n, hn, he⟩ := List.mem_map.mp hp2
    rw [← he]
    exact ⟨rfl, hn⟩
  have hrank : ((List.insertionSort (fun p q : MapNode × Nat => p.2 ≤ q.2)
      (nodes.map (fun n => (n, nodeRank genes species n)))).map
        (fun p => p.1)).Pairwise (fun a b =>
          nodeRank genes species a ≤ nodeRank genes species b) := by
    rw [List.pairwise_map]
    refine List.Pairwise.imp_of_mem ?_ hsorted
    intro a b ha hb hle
    rw [← (hmemkey a ha).1, ← (hmemkey b hb).1]
    exact hle
  refine ⟨_, hsort, hperm, hrank, ?_⟩
  refine List.Pairwise.imp_of_mem ?_ hrank
  intro a b ha hb hle ga sa gb sb hga hsa hgb hsb
  have han : a ∈ nodes := (hperm.mem_iff).mp ha
  have hbn : b ∈ nodes := (hperm.mem_iff).mp hb
  obtain ⟨⟨g1, hg1, hg1e⟩, ⟨s1, hs1, hs1e⟩⟩ := hwf a han
  obtain ⟨⟨g2, hg2m, hg2e⟩, ⟨s2, hs2m, hs2e⟩⟩ := hwf b hbn
  have hgam : ga ∈ genes := by
    rw [hga] at hg1e
    rw [Option.some_inj.mp hg1e]
    exact hg1
  have hsam : sa ∈ species := by
    rw [hsa] at hs1e
    rw [Option.some_inj.mp hs1e]
    exact hs1
  have hgbm : gb ∈ genes := by
    rw [hgb] at hg2e
    rw [Option.some_inj.mp hg2e]
    exact hg2m
  have hsbm : sb ∈ species := by
    rw [hsb] at hs2e
    rw [Option.some_inj.mp hs2e]
    exact hs2m
  have hsiS : List.indexOf sa species < species.length :=
    List.indexOf_lt_length.mpr hsam
  have hsjS : List.indexOf sb species < species.length :=
    List.indexOf_lt_length.mpr hsbm
  have hra : nodeRank genes species a =
      List.indexOf ga genes * species.length + List.indexOf sa species := by
    obtain ⟨a1, a2⟩ := a
    simp at hga hsa
    rw [nodeRank]
    simp [hga, hsa]
  have hrb : nodeRank genes species b =
      List.indexOf gb genes * species.length + List.indexOf sb species := by
    obtain ⟨b1, b2⟩ := b
    simp at hgb hsb
    rw [nodeRank]
    simp [hgb, hsb]
  rw [hra, hrb] at hle
  exact (rank_le_iff_lex hsiS hsjS).mp hle

/-- Witness for C8: a concrete four-node sort, with gene order dominating
species order. -/
theorem c8_sort_lexicographic_witness :
    ∃ out, mapping_node_sort ["g1", "g0"] ["sa", "sb", "sn"]
        [wN, wA, (some "g0", some "sb"), wB] = some out ∧
      out.Perm [wN, wA, (some "g0", some "sb"), wB] ∧
      out.Pairwise (fun a b =>
        nodeRank ["g1", "g0"] ["sa", "sb", "sn"] a ≤
        nodeRank ["g1", "g0"] ["sa", "sb", "sn"] b) ∧
      out.Pairwise (fun a b => ∀ ga sa2 gb sb2,
        a.1 = some ga → a.2 = some sa2 → b.1 = some gb → b.2 = some sb2 →
        (List.indexOf ga ["g1", "g0"] < List.indexOf gb ["g1", "g0"] ∨
         (List.indexOf ga ["g1", "g0"] = List.indexOf gb ["g1", "g0"] ∧
          List.indexOf sa2 ["sa", "sb", "sn"] ≤
          List.indexOf sb2 ["sa", "sb", "sn"]))) :=
  c8_sort_lexicographic ["g1", "g0"] ["sa", "sb", "sn"]
    [wN, wA, (some "g0", some "sb"), wB] (by decide) (by decide) (by decide)

/-- Amended precondition for C6: every MPR count derivable in the graph is
positive (equivalently, no mapping node reachable through the count relation
has an empty event list). -/
def PosCounts (g : ReconGraph) : Prop := ∀ n c, NodeCount g n c → 0 < c

theorem EventCount_pos {g : ReconGraph} (hp : PosCounts g) {ev : Event}
    {c : Nat} (h : EventCount g ev c) : 0 < c := by
  obtain ⟨a, b, ha, hb, rfl⟩ := h
  exact Nat.mul_pos (hp _ _ ha) (hp _ _ hb)

theorem except_bind_err {α β : Type} {x : Except String α}
    {f : α → Except String β} {e : String}
    (h : (x >>= f) = Except.error e) :
    x = Except.error e ∨ ∃ a, x = Except.ok a ∧ f a = Except.error e := by
  cases x with
  | error e2 =>
    left
    simp [Bind.bind, Except.bind] at h
    rw [h]
  | ok a =>
    right
    exact ⟨a, rfl, by simpa [Bind.bind, Except.bind] using h⟩

theorem foldlM_ne_error {α β : Type} (step : β → α → Except String β)
    (E : String) (hstep : ∀ b a, step b a ≠ Except.error E) :
    ∀ (l : List α) (b : β), List.foldlM step b l ≠ Except.error E := by
  intro l
  induction l with
  | nil =>
    intro b h
    rw [List.foldlM_nil] at h
    exact absurd h (by simp [pure, Except.pure])
  | cons a l ih =>
    intro b h
    rw [List.foldlM_cons] at h
    rcases except_bind_err h with h | ⟨b2, hb2, h⟩
    · exact hstep b a h
    · exact ih b2 h

/-- Complete characterization of one event step of
`calculate_scores_for_children`: either some dictionary read misses (a
Python KeyError), or the step succeeds with the event scored
`multiplier * counts[event]` and both children's scores bumped by it. -/
theorem csfc_step_cases (mult : ℚ) (cnts : Counts)
    (acc : EventScores × Scores) (ev : Event) :
    csfc_step mult cnts acc ev = Except.error "keyerror" ∨
    ∃ ce old1 old2,
      lookupA cnts.e ev = some ce ∧
      lookupA acc.2 ev.c1 = some old1 ∧
      lookupA (setA acc.2 ev.c1 (old1 + mult * (ce : ℚ))) ev.c2 = some old2 ∧
      csfc_step mult cnts acc ev = Except.ok
        (setA acc.1 ev (mult * (ce : ℚ)),
         setA (setA acc.2 ev.c1 (old1 + mult * (ce : ℚ))) ev.c2
           (old2 + mult * (ce : ℚ))) := by
  rw [csfc_step]
  cases h1 : lookupA cnts.e ev with
  | none =>
    left
    simp [getE, h1, Bind.bind, Except.bind]
  | some ce =>
    simp only [getE, h1, Except.pure, Bind.bind, Except.bind]
    cases h2 : lookupA acc.2 ev.c1 with
    | none =>
      left
      simp [addAtE, h2, Bind.bind, Except.bind]
    | some old1 =>
      simp only [addAtE, h2, Except.pure, Bind.bind, Except.bind]
      cases h3 : lookupA (setA acc.2 ev.c1 (old1 + mult * (ce : ℚ))) ev.c2 with
      | none =>
        left
        simp [h3]
      | some old2 =>
        right
        exact ⟨ce, old1, old2, rfl, rfl, h3, by simp [h3]⟩

theorem gs_count_step_err {fuel : Nat} {g : ReconGraph} {root : String}
    {acc : Nat × Counts} {n : MapNode} {e : String}
    (h : gs_count_step fuel g root acc n = Except.error e) :
    e = "count-failure" := by
  rw [gs_count_step] at h
  by_cases hr : n.1 = some root
  · rw [if_pos hr] at h
    cases hc : count_mprs fuel g n acc.2 with
    | none =>
      simp only [hc] at h
      exact (Except.error.inj h).symm
    | some p =>
      obtain ⟨c, k⟩ := p
      simp only [hc] at h
      exact absurd h (by simp [Except.pure])
  · rw [if_neg hr] at h
    exact absurd h (by simp [Except.pure])

theorem gs_normalize_step_err {count : Nat} {sc : Scores} {n : MapNode}
    {e : String} (h : gs_normalize_step count sc n = Except.error e) :
    e = "zerodivision" ∨ e = "keyerror" := by
  rw [gs_normalize_step] at h
  by_cases hc : count = 0
  · rw [if_pos hc] at h
    simp [Bind.bind, Except.bind] at h
    exact Or.inl h.symm
  · rw [if_neg hc] at h
    simp only [Bind.bind, Except.bind, pure, Except.pure] at h
    cases hv : lookupA sc n with
    | none =>
      simp only [getE, hv] at h
      exact Or.inr (Except.error.inj h).symm
    | some v =>
      simp only [getE, hv, Except.pure] at h
      exact absurd h (by simp)

/-- Invariants of the event loop of `calculate_scores_for_children` under a
positive multiplier and positive cached event counts: scores stay
nonnegative, existing scores only grow, and both children of every processed
event end with a strictly positive score. -/
theorem csfc_loop_facts {g : ReconGraph} (mult : ℚ) (cnts : Counts)
    (hm : 0 < mult) (hok : CountsOK g cnts) (hpos : PosCounts g) :
    ∀ (evs : List Event) (acc res : EventScores × Scores),
      (∀ p ∈ acc.2, (0:ℚ) ≤ p.2) →
      List.foldlM (csfc_step mult cnts) acc evs = Except.ok res →
      (∀ p ∈ res.2, (0:ℚ) ≤ p.2) ∧
      (∀ k q, lookupA acc.2 k = some q →
        ∃ q2, lookupA res.2 k = some q2 ∧ q ≤ q2) ∧
      (∀ ev ∈ evs, ∀ k, k = ev.c1 ∨ k = ev.c2 →
        ∃ q, lookupA res.2 k = some q ∧ 0 < q) := by
  intro evs
  induction evs with
  | nil =>
    intro acc res hnn h
    rw [List.foldlM_nil] at h
    have hres : acc = res := by simpa [pure, Except.pure] using h
    subst hres
    exact ⟨hnn, fun k q hq => ⟨q, hq, le_refl q⟩,
      fun ev hev => absurd hev (by simp)⟩
  | cons ev rest ih =>
    intro acc res hnn h
    rw [List.foldlM_cons] at h
    obtain ⟨acc1, hstep, hrest⟩ := except_bind_ok h
    rcases csfc_step_cases mult cnts acc ev with herr |
      ⟨ce, old1, old2, hce, h1, h2, hokstep⟩
    · rw [herr] at hstep
      exact absurd hstep (by simp)
    · rw [hokstep] at hstep
      have hacc1 : acc1 = (setA acc.1 ev (mult * (ce : ℚ)),
          setA (setA acc.2 ev.c1 (old1 + mult * (ce : ℚ))) ev.c2
            (old2 + mult * (ce : ℚ))) := (Except.ok.inj hstep).symm
      rw [hacc1] at hrest
      have hec : EventCount g ev ce := hok.2 (ev, ce) (lookupA_mem hce)
      have hcep : 0 < ce := EventCount_pos hpos hec
      have hv : 0 < mult * (ce : ℚ) :=
        mul_pos hm (by exact_mod_cast hcep)
      have ho1 : (0:ℚ) ≤ old1 := hnn (ev.c1, old1) (lookupA_mem h1)
      have hnn1 : ∀ p ∈ setA acc.2 ev.c1 (old1 + mult * (ce : ℚ)),
          (0:ℚ) ≤ p.2 := by
        intro p hp
        rcases mem_setA hp with hp | hp
        · rw [hp]
          exact add_nonneg ho1 (le_of_lt hv)
        · exact hnn p hp
      have ho2 : (0:ℚ) ≤ old2 := hnn1 (ev.c2, old2) (lookupA_mem h2)
      have hnn2 : ∀ p ∈ setA (setA acc.2 ev.c1 (old1 + mult * (ce : ℚ)))
          ev.c2 (old2 + mult * (ce : ℚ)), (0:ℚ) ≤ p.2 := by
        intro p hp
        rcases mem_setA hp with hp | hp
        · rw [hp]
          exact add_nonneg ho2 (le_of_lt hv)
        · exact hnn1 p hp
      obtain ⟨hnnres, hmono1, hchild⟩ := ih _ res hnn2 hrest
      refine ⟨hnnres, ?_, ?_⟩
      · intro k q hq
        have hstep1 : ∃ q1,
            lookupA (setA acc.2 ev.c1 (old1 + mult * (ce : ℚ))) k =
              some q1 ∧ q ≤ q1 := by
          by_cases hk : ev.c1 = k
          · subst hk
            have hq1 : old1 = q := Option.some.inj (h1.symm.trans hq)
            refine ⟨old1 + mult * (ce : ℚ), lookupA_setA_self _ _ _, ?_⟩
            rw [← hq1]
            exact le_add_of_nonneg_right (le_of_lt hv)
          · exact ⟨q, by rw [lookupA_setA_ne _ _ hk]; exact hq, le_refl q⟩
        obtain ⟨q1, hq1, hle1⟩ := hstep1
        have hstep2 : ∃ q2,
            lookupA (setA (setA acc.2 ev.c1 (old1 + mult * (ce : ℚ)))
              ev.c2 (old2 + mult * (ce : ℚ))) k = some q2 ∧ q1 ≤ q2 := by
          by_cases hk : ev.c2 = k
          · subst hk
            have hq2 : old2 = q1 := Option.some.inj (h2.symm.trans hq1)
            refine ⟨old2 + mult * (ce : ℚ), lookupA_setA_self _ _ _, ?_⟩
            rw [← hq2]
            exact le_add_of_nonneg_right (le_of_lt hv)
          · exact ⟨q1, by rw [lookupA_setA_ne _ _ hk]; exact hq1, le_refl q1⟩
        obtain ⟨q2, hq2, hle2⟩ := hstep2
        obtain ⟨q3, hq3, hle3⟩ := hmono1 k q2 hq2
        exact ⟨q3, hq3, le_trans (le_trans hle1 hle2) hle3⟩
      · intro ev2 hev2 k hk
        rcases List.mem_cons.mp hev2 with hev2 | hev2
        · subst hev2
          have hpos1 : ∃ q, lookupA (setA (setA acc.2 ev2.c1
              (old1 + mult * (ce : ℚ))) ev2.c2
              (old2 + mult * (ce : ℚ))) k = some q ∧ 0 < q := by
            by_cases hk2 : ev2.c2 = k
            · subst hk2
              exact ⟨old2 + mult * (ce : ℚ), lookupA_setA_self _ _ _,
                add_pos_of_nonneg_of_pos ho2 hv⟩
            · rcases hk with hk | hk
              · subst hk
                refine ⟨old1 + mult * (ce : ℚ), ?_,
                  add_pos_of_nonneg_of_pos ho1 hv⟩
                rw [lookupA_setA_ne _ _ hk2]
                exact lookupA_setA_self _ _ _
              · exact absurd hk.symm hk2
          obtain ⟨q, hq, hqpos⟩ := hpos1
          obtain ⟨q2, hq2, hle⟩ := hmono1 k q hq
          exact ⟨q2, hq2, lt_of_lt_of_le hqpos hle⟩
        · exact hchild ev2 hev2 k hk

theorem csfc_step_no_assert (mult : ℚ) (cnts : Counts)
    (b : EventScores × Scores) (a : Event) :
    csfc_step mult cnts b a ≠ Except.error "assert-nonzero" := by
  intro h
  rcases csfc_step_cases mult cnts b a with herr | ⟨ce, o1, o2, _, _, _, hokc⟩
  · rw [herr] at h
    exact absurd (Except.error.inj h) (by decide)
  · rw [hokc] at h
    exact absurd h (by simp)

/-- `calculate_scores_for_children` at a node whose score is present and
positive, with consistent positive counts and nonnegative scores: it never
raises the nonzero-score assertion, and on success scores stay nonnegative,
existing scores only grow, and both children of every event of the node get
a strictly positive score. -/
theorem csfc_facts {g : ReconGraph} {n : MapNode} {es : EventScores}
    {sc : Scores} {cnts : Counts} {s0 : ℚ}
    (hok : CountsOK g cnts) (hpos : PosCounts g)
    (hnn : ∀ p ∈ sc, (0:ℚ) ≤ p.2)
    (hs : lookupA sc n = some s0) (hs0 : 0 < s0) :
    calculate_scores_for_children n g es sc cnts ≠
      Except.error "assert-nonzero" ∧
    ∀ es2 sc2,
      calculate_scores_for_children n g es sc cnts = Except.ok (es2, sc2) →
      (∀ p ∈ sc2, (0:ℚ) ≤ p.2) ∧
      (∀ k q, lookupA sc k = some q →
        ∃ q2, lookupA sc2 k = some q2 ∧ q ≤ q2) ∧
      (∀ evs, lookupA g n = some evs → ∀ ev ∈ evs, ∀ k,
        k = ev.c1 ∨ k = ev.c2 →
        ∃ q, lookupA sc2 k = some q ∧ 0 < q) := by
  cases hg : lookupA g n with
  | none =>
    have hred : calculate_scores_for_children n g es sc cnts =
        Except.error "keyerror" := by
      rw [calculate_scores_for_children]
      simp [getE, hg, Bind.bind, Except.bind]
    refine ⟨by rw [hred]; intro h; exact absurd (Except.error.inj h) (by decide),
      fun es2 sc2 h => absurd (hred ▸ h) (by simp)⟩
  | some evs0 =>
    cases hcm : lookupA cnts.m n with
    | none =>
      have hred : calculate_scores_for_children n g es sc cnts =
          Except.error "keyerror" := by
        rw [calculate_scores_for_children]
        simp only [getE, hg, hs, hcm, Except.pure, Bind.bind, Except.bind]
        rw [if_neg (by exact ne_of_gt hs0)]
        simp [pure, Except.pure]
      refine ⟨by rw [hred]; intro h; exact absurd (Except.error.inj h) (by decide),
        fun es2 sc2 h => absurd (hred ▸ h) (by simp)⟩
    | some cn =>
      have hcn : 0 < cn :=
        hpos n cn (hok.1 (n, cn) (lookupA_mem hcm))
      have hm : 0 < s0 / (cn : ℚ) :=
        div_pos hs0 (by exact_mod_cast hcn)
      have hred : calculate_scores_for_children n g es sc cnts =
          List.foldlM (csfc_step (s0 / (cn : ℚ)) cnts) (es, sc) evs0 := by
        rw [calculate_scores_for_children]
        simp only [getE, hg, hs, hcm, Except.pure, Bind.bind, Except.bind]
        rw [if_neg (by exact ne_of_gt hs0), if_neg (by omega)]
        simp [pure, Except.pure]
      constructor
      · rw [hred]
        exact foldlM_ne_error _ _ (csfc_step_no_assert _ _) evs0 (es, sc)
      · intro es2 sc2 h
        rw [hred] at h
        obtain ⟨hnn2, hmono, hchild⟩ :=
          csfc_loop_facts (s0 / (cn : ℚ)) cnts hm hok hpos evs0 (es, sc)
            (es2, sc2) hnn h
        refine ⟨hnn2, hmono, ?_⟩
        intro evs hevs ev hev k hk
        have hevs0 : evs0 = evs := Option.some.inj hevs
        rw [← hevs0] at hev
        exact hchild ev hev k hk

/-- Some member of `l` has an event in the graph with `n` as a child. -/
def ParentIn (g : ReconGraph) (l : List MapNode) (n : MapNode) : Prop :=
  ∃ p ∈ l, ∃ ev ∈ (lookupA g p).getD [], n = ev.c1 ∨ n = ev.c2

/-- Invariant induction over the cascade loop of `generate_scores`: with
consistent positive counts, nonnegative scores, strictly positive scores for
all event children of already-processed nodes, and every node still to be
processed being either a gene-root node or an event child of a node
processed before it, the nonzero-score assertion never fires. -/
theorem cascade_no_assert {g : ReconGraph} {root : String} {cnts : Counts}
    (hok : CountsOK g cnts) (hpos : PosCounts g) :
    ∀ (rest done : List MapNode) (acc : EventScores × Scores),
      (∀ p ∈ acc.2, (0:ℚ) ≤ p.2) →
      (∀ p ∈ done, ∀ evs, lookupA g p = some evs → ∀ ev ∈ evs, ∀ k,
        k = ev.c1 ∨ k = ev.c2 →
        ∃ q, lookupA acc.2 k = some q ∧ 0 < q) →
      (∀ d2 n r2, rest = d2 ++ n :: r2 →
        n.1 = some root ∨ ParentIn g (done ++ d2) n) →
      List.foldlM (gs_cascade_step g root cnts) acc rest ≠
        Except.error "assert-nonzero" := by
  intro rest
  induction rest with
  | nil =>
    intro done acc hnn hinv hreach h
    rw [List.foldlM_nil] at h
    exact absurd h (by simp [pure, Except.pure])
  | cons n r2 ih =>
    intro done acc hnn hinv hreach h
    rw [List.foldlM_cons] at h
    have hmain : ∀ sc : Scores,
        gs_cascade_step g root cnts acc n =
          calculate_scores_for_children n g acc.1 sc cnts →
        (∀ p ∈ sc, (0:ℚ) ≤ p.2) →
        (∀ p ∈ done, ∀ evs, lookupA g p = some evs → ∀ ev ∈ evs, ∀ k,
          k = ev.c1 ∨ k = ev.c2 →
          ∃ q, lookupA sc k = some q ∧ 0 < q) →
        (∃ s0, lookupA sc n = some s0 ∧ 0 < s0) → False := by
      intro sc hsteq hnnsc hinvsc ⟨s0, hsn, hs0⟩
      rw [hsteq] at h
      obtain ⟨hne, hfacts⟩ := csfc_facts hok hpos hnnsc hsn hs0
      rcases except_bind_err h with h2 | ⟨res, hres, h2⟩
      · exact hne h2
      · obtain ⟨es2, sc2⟩ := res
        obtain ⟨hnn2, hmono2, hchild2⟩ := hfacts es2 sc2 hres
        refine ih (done ++ [n]) (es2, sc2) hnn2 ?_ ?_ h2
        · intro p hp evs hevs ev hev k hk
          rcases List.mem_append.mp hp with hp | hp
          · obtain ⟨q, hq, hqpos⟩ := hinvsc p hp evs hevs ev hev k hk
            obtain ⟨q2, hq2, hle⟩ := hmono2 k q hq
            exact ⟨q2, hq2, lt_of_lt_of_le hqpos hle⟩
          · have hpn : p = n := by simpa using hp
            subst hpn
            exact hchild2 evs hevs ev hev k hk
        · intro d2 n2 r3 heq
          rcases hreach (n :: d2) n2 r3 (by rw [heq]; rfl) with hroot | hpar
          · exact Or.inl hroot
          · right
            rw [List.append_cons] at hpar
            exact hpar
    by_cases hr : n.1 = some root
    · cases hcm : lookupA cnts.m n with
      | none =>
        have hsteq : gs_cascade_step g root cnts acc n =
            Except.error "keyerror" := by
          rw [gs_cascade_step]
          simp [hr, getE, hcm, Bind.bind, Except.bind]
        rw [hsteq] at h
        rcases except_bind_err h with h2 | ⟨res, hres, h2⟩
        · exact absurd (Except.error.inj h2) (by decide)
        · exact absurd hres (by simp)
      | some c =>
        have hc : 0 < c := hpos n c (hok.1 (n, c) (lookupA_mem hcm))
        have hsteq : gs_cascade_step g root cnts acc n =
            calculate_scores_for_children n g acc.1
              (setA acc.2 n ((c : ℚ))) cnts := by
          rw [gs_cascade_step]
          simp [hr, getE, hcm, Bind.bind, Except.bind, Except.pure]
        refine hmain (setA acc.2 n ((c : ℚ))) hsteq ?_ ?_
          ⟨(c : ℚ), lookupA_setA_self _ _ _, by exact_mod_cast hc⟩
        · intro p hp
          rcases mem_setA hp with hp | hp
          · rw [hp]
            simp
          · exact hnn p hp
        · intro p hp evs hevs ev hev k hk
          obtain ⟨q, hq, hqpos⟩ := hinv p hp evs hevs ev hev k hk
          by_cases hkn : n = k
          · subst hkn
            exact ⟨(c : ℚ), lookupA_setA_self _ _ _, by exact_mod_cast hc⟩
          · refine ⟨q, ?_, hqpos⟩
            rw [lookupA_setA_ne _ _ hkn]
            exact hq
    · have hsteq : gs_cascade_step g root cnts acc n =
          calculate_scores_for_children n g acc.1 acc.2 cnts := by
        rw [gs_cascade_step]
        simp [hr, Bind.bind, Except.bind, Except.pure]
      rcases hreach [] n r2 rfl with hroot | hpar
      · exact hr hroot
      · obtain ⟨p, hp, ev, hev, hk⟩ := hpar
        rw [List.append_nil] at hp
        cases hlk : lookupA g p with
        | none =>
          rw [hlk] at hev
          exact absurd hev (by simp)
        | some evs =>
          rw [hlk] at hev
          have hscn := hinv p hp evs hlk ev hev n hk
          exact hmain acc.2 hsteq hnn hinv hscn

theorem fold_setA_zero_entries (pre : List MapNode) :
    ∀ (d : Scores), (∀ p ∈ d, p.2 = (0:ℚ)) →
      ∀ p ∈ pre.foldl (fun s n => setA s n 0) d, p.2 = 0 := by
  induction pre with
  | nil =>
    intro d hd
    simpa using hd
  | cons n rest ih =>
    intro d hd
    rw [List.foldl_cons]
    refine ih (setA d n 0) ?_
    intro p hp
    rcases mem_setA hp with hp | hp
    · rw [hp]
    · exact hd p hp

/-- The indexed root-to-leaf ordering hypothesis implies, at every split of
the preorder list, that the node at the split point is a gene-root node or
an event child of some node strictly before the split. -/
theorem reach_split_of_fin {pre : List MapNode} {g : ReconGraph}
    {root : String}
    (hf : ∀ j : Fin pre.length, (pre.get j).1 = some root ∨
      ∃ i : Fin pre.length, i < j ∧
        ∃ ev ∈ (lookupA g (pre.get i)).getD [],
          pre.get j = ev.c1 ∨ pre.get j = ev.c2) :
    ∀ d2 n r2, pre = d2 ++ n :: r2 → n.1 = some root ∨ ParentIn g d2 n := by
  intro d2 n r2 heq
  have hlen : d2.length < pre.length := by
    rw [heq, List.length_append, List.length_cons]
    omega
  have hjq : pre[d2.length]? = some n := by
    rw [heq, List.getElem?_append_right (le_refl d2.length)]
    simp
  have hj : pre.get ⟨d2.length, hlen⟩ = n := by
    have h2 := hjq
    rw [List.getElem?_eq_getElem hlen] at h2
    simpa [List.get_eq_getElem] using h2
  rcases hf ⟨d2.length, hlen⟩ with hroot | ⟨i, hij, ev, hev, hk⟩
  · left
    rw [hj] at hroot
    exact hroot
  · right
    obtain ⟨iv, hivlt⟩ := i
    have hi : iv < d2.length := hij
    have hiq : pre[iv]? = d2[iv]? := by
      rw [heq, List.getElem?_append, if_pos hi]
    have hsome : d2[iv]? = some (pre.get ⟨iv, hivlt⟩) := by
      rw [← hiq, List.getElem?_eq_getElem hivlt]
      simp [List.get_eq_getElem]
    have hd2 : d2[iv] = pre.get ⟨iv, hivlt⟩ := by
      have h3 := hsome
      rw [List.getElem?_eq_getElem hi] at h3
      exact Option.some.inj h3
    have hmem : pre.get ⟨iv, hivlt⟩ ∈ d2 := hd2 ▸ List.getElem_mem hi
    refine ⟨pre.get ⟨iv, hivlt⟩, hmem, ev, hev, ?_⟩
    rw [← hj]
    exact hk

/-- C6 (amended): if, in addition to the root-to-leaf ordering (every node of
the preorder list is a gene-root node or an event child of a strictly earlier
listed node), every MPR count derivable in the graph is positive, then the
nonzero-score assertion at the start of `calculate_scores_for_children` never
fails during `generate_scores`. -/
theorem c6_score_assert_holds (fuel : Nat) (pre : List MapNode)
    (g : ReconGraph) (root : String) (hpos : PosCounts g)
    (hreach : ∀ j : Fin pre.length, (pre.get j).1 = some root ∨
      ∃ i : Fin pre.length, i < j ∧
        ∃ ev ∈ (lookupA g (pre.get i)).getD [],
          pre.get j = ev.c1 ∨ pre.get j = ev.c2) :
    generate_scores fuel pre g root ≠ Except.error "assert-nonzero" := by
  intro h
  unfold generate_scores at h
  rcases except_bind_err h with h1 | ⟨cp, hcp, h⟩
  · refine foldlM_ne_error _ _ ?_ pre _ h1
    intro b a hq
    exact absurd (gs_count_step_err hq) (by decide)
  · have hok : CountsOK g cp.2 :=
      (gs_count_phase_sound fuel g root pre _ cp (CountsOK_empty g) hcp).1
    rcases except_bind_err h with h2 | ⟨casc, hcasc, h⟩
    · refine cascade_no_assert hok hpos pre [] _ ?_ ?_ ?_ h2
      · intro p hp
        rcases mem_setA hp with hp | hp
        · rw [hp]
        · have hz := fold_setA_zero_entries pre [] (by simp) p hp
          rw [hz]
      · intro p hp
        simp at hp
      · intro d2 n r2 heq
        rcases reach_split_of_fin hreach d2 n r2 heq with hroot | hpar
        · exact Or.inl hroot
        · right
          rw [List.nil_append]
          exact hpar
    · rcases except_bind_err h with h3 | ⟨nrm, hnrm, h⟩
      · refine foldlM_ne_error _ _ ?_ pre _ h3
        intro b a hq
        rcases gs_normalize_step_err hq with hh | hh <;>
          exact absurd hh (by decide)
      · exact absurd h (by simp [Except.pure])

/-- A one-node graph for exercising the amended C6 theorem: the single
mapping node carries one Contemporary event. -/
def c6WGraph : ReconGraph := [(wA, [cEvent])]

theorem c6WGraph_posCounts : PosCounts c6WGraph := by
  intro n c h
  cases h with
  | base => exact Nat.one_pos
  | node =>
    rename_i evs hne hlk hec
    by_cases hn : wA = n
    · simp [c6WGraph, lookupA, hn] at hlk
      subst hlk
      cases hec with
      | cons =>
        rename_i a b c0 ha hb hec0
        have ha2 : NodeCount c6WGraph sentinel a := ha
        have hb2 : NodeCount c6WGraph sentinel b := hb
        rw [NodeCount_sentinel ha2, NodeCount_sentinel hb2]
        cases hec0
        omega
    · simp [c6WGraph, lookupA, hn] at hlk

theorem c6_score_assert_holds_witness :
    generate_scores 5 [wA] c6WGraph "g1" ≠ Except.error "assert-nonzero" :=
  c6_score_assert_holds 5 [wA] c6WGraph "g1" c6WGraph_posCounts (by decide)

/-- Counterexample graph for C6 as stated: the root offers two speciation
events; the first leads to `c6X`, whose event list is empty, so every MPR
uses the second event and `c6X` accumulates score 0. -/
def c6R : MapNode := (some "g0", some "s0")

def c6X : MapNode := (some "g1", some "s1")

def c6Y1 : MapNode := (some "g2", some "s2")

def c6X2 : MapNode := (some "g1", some "s3")

def c6Y2 : MapNode := (some "g2", some "s4")

def c6Sp1 : Event := ⟨EType.S, c6X, c6Y1⟩

def c6Sp2 : Event := ⟨EType.S, c6X2, c6Y2⟩

def c6Graph : ReconGraph :=
  [(c6R, [c6Sp1, c6Sp2]), (c6X, []), (c6Y1, [cEvent]),
   (c6X2, [cEvent]), (c6Y2, [cEvent])]

def c6Pre : List MapNode := [c6R, c6X, c6Y1, c6X2, c6Y2]

unseal Rat.add Rat.mul Rat.sub Rat.inv in
/-- C6 counterexample: `c6Pre` is in strict root-to-leaf order and every node
is a gene-root node or an event child of an earlier node (the claimed
precondition holds), yet the nonzero-score assertion fires, because the
reachable node `c6X` has an empty event list, so the only event leading to
it has MPR count 0 and contributes score 0. -/
theorem c6_reachability_insufficient :
    (∀ j : Fin c6Pre.length, (c6Pre.get j).1 = some "g0" ∨
      ∃ i : Fin c6Pre.length, i < j ∧
        ∃ ev ∈ (lookupA c6Graph (c6Pre.get i)).getD [],
          c6Pre.get j = ev.c1 ∨ c6Pre.get j = ev.c2) ∧
    generate_scores 20 c6Pre c6Graph "g0" =
      Except.error "assert-nonzero" :=
  ⟨by decide, by decide⟩
